import Mathlib

/-!
Verification of the simplebtclib core (secp256k1 point arithmetic, ECDSA,
WIF encoding, BIP32 extended keys) against its natural-language specification.

The Python sources in `src/btc/` are shallowly embedded below:
pure functions become Lean functions on `Nat` / `Int` / `List Nat` (byte
strings are lists of naturals below 256), and fallible code returns the
`Res` type, which distinguishes Python's `ValueError` (caught by some
callers) from every other runtime exception (`AssertionError`,
`OverflowError`, ...).  Loops are given explicit fuel; the fuel is always
chosen at call sites to exceed the actual iteration count, so exhaustion
is unreachable on the executions the theorems talk about.

Hash primitives: SHA-256 is embedded in full (FIPS 180-4); HMAC-SHA512 and
RIPEMD-160 are treated as external collaborators (the spec lists them as
out-of-scope, assumed-correct primitives) and appear as function parameters.
-/

namespace SimpleBTC

/-- Result of running a piece of embedded Python code: a value, a raised
`ValueError` carrying (a tag identifying) its message, or any other
runtime exception. -/
inductive VMsg where
  | noModInverse
  | hardenedChild
  | invalidChild
  | invalidWif
  | wrongChecksum
  | invalidSer
  | base58Char
  | wrongIndex
  | fromhexError
  deriving DecidableEq, Repr

inductive Res (α : Type) where
  | ok : α → Res α
  | verr : VMsg → Res α
  | exc : Res α
  deriving DecidableEq, Repr

def Res.bind {α β : Type} : Res α → (α → Res β) → Res β
  | .ok a, f => f a
  | .verr m, _ => .verr m
  | .exc, _ => .exc

instance : Monad Res where
  pure := Res.ok
  bind := Res.bind

/-- `utils.bytes2int`: big-endian interpretation of a byte string. -/
def bytes2int (b : List Nat) : Nat :=
  b.foldl (fun acc d => acc * 256 + d) 0

/-- Big-endian encoding of `i` on exactly `l` bytes, truncating high bits;
the overflow check of Python's `int.to_bytes` is in `int2bytes`. -/
def int2bytesF : Nat → Nat → List Nat
  | 0, _ => []
  | l + 1, i => int2bytesF l (i / 256) ++ [i % 256]

/-- `utils.int2bytes` with an explicit length: raises `OverflowError`
(modelled as `Res.exc`) when the value does not fit. -/
def int2bytes (i : Nat) (l : Nat) : Res (List Nat) :=
  if i < 256 ^ l then .ok (int2bytesF l i) else .exc

/-- Python list/bytes slicing `b[i:j]`. -/
def pyslice (b : List Nat) (i j : Nat) : List Nat :=
  (b.take j).drop i

/-- `utils.BASE58_ALPHABET`. -/
def BASE58_ALPHABET : List Char :=
  "123456789ABCDEFGHJKLMNPQRSTUVWXYZabcdefghijkmnopqrstuvwxyz".toList

/-- Digit-to-character table lookup used by the encoder. -/
def b58chr (d : Nat) : Char :=
  BASE58_ALPHABET.getD d 'X'

/-- Python `str.index`: position of the first occurrence, `ValueError` if
absent (tagged `base58Char`). -/
def alphaIndex : List Char → Char → Res Nat
  | [], _ => .verr .base58Char
  | c :: rest, d =>
    if c = d then .ok 0
    else
      match alphaIndex rest d with
      | .ok i => .ok (i + 1)
      | r => r

/-- Loop of `utils.base58_encode`, building the digit string most
significant first; fuel decreases once per division by 58. -/
def b58encAux : Nat → Nat → List Char → List Char
  | 0, _, acc => acc
  | f + 1, num, acc =>
    if 58 ≤ num then
      b58encAux f (num / 58) (b58chr (num % 58) :: acc)
    else if num ≠ 0 then b58chr num :: acc
    else acc

/-- `utils.base58_encode`: encodes the big-endian integer value of the
byte string (leading zero bytes are dropped). -/
def base58_encode (b : List Nat) : List Char :=
  b58encAux (bytes2int b + 1) (bytes2int b) []

/-- Loop of `utils.base58_decode` over the reversed string. -/
def b58decAux : List Char → Nat → Nat → Res Nat
  | [], _, acc => .ok acc
  | c :: rest, multi, acc =>
    match alphaIndex BASE58_ALPHABET c with
    | .ok i => b58decAux rest (multi * 58) (acc + multi * i)
    | .verr m => .verr m
    | .exc => .exc

/-- `utils.base58_decode` with an explicit requested length: decodes the
integer value and left-pads it to `length` bytes. -/
def base58_decode (s : List Char) (length : Nat) : Res (List Nat) := do
  let d ← b58decAux s.reverse 1 0
  int2bytes d length

/-- `egcd` inside `utils.mod_inverse`, with fuel (the Python version
recurses); fuel exhaustion returns `(0, 0, 0)`, which fails the `g = 1`
test of `mod_inverse`, and the Bezout identity below holds for every
fuel value. -/
def egcdF : Nat → Int → Int → Int × Int × Int
  | 0, _, _ => (0, 0, 0)
  | f + 1, a, b =>
    if a = 0 then (b, 0, 1)
    else
      let r := egcdF f (b % a) a
      (r.1, r.2.2 - r.2.1 * (b / a), r.2.1)

/-- Reduction of an integer to a natural number below `m`, as Python's
`x % m` for positive `m`. -/
def natMod (z : Int) (m : Nat) : Nat :=
  (z % (m : Int)).toNat

/-- `utils.mod_inverse`: modular inverse through the extended Euclidean
algorithm; raises `ValueError` when `gcd ≠ 1`. -/
def mod_inverse (a m : Nat) : Res Nat :=
  let r := egcdF (a + 2) (a : Int) (m : Int)
  if r.1 = 1 then .ok (natMod r.2.1 m) else .verr .noModInverse

/-- Fast modular exponentiation standing in for Python's built-in
`pow(b, e, m)`; correct whenever `e < 2 ^ fuel`. -/
def powModF : Nat → Nat → Nat → Nat → Nat
  | 0, _, _, m => 1 % m
  | f + 1, b, e, m =>
    if e = 0 then 1 % m
    else
      let r := powModF f b (e / 2) m
      if e % 2 = 0 then r * r % m else r * r % m * b % m

/-- Parameters of secp256k1, as defined at the top of `ecpoint.py`. -/
def SECP256K1_A : Nat := 0

def SECP256K1_B : Nat := 7

def SECP256K1_GX : Nat :=
  0x79be667ef9dcbbac55a06295ce870b07029bfcdb2dce28d959f2815b16f81798

def SECP256K1_GY : Nat :=
  0x483ada7726a3c4655da4fbfc0e1108a8fd17b448a68554199c47d08ffb10d4b8

def SECP256K1_P : Nat :=
  2 ^ 256 - 2 ^ 32 - 2 ^ 9 - 2 ^ 8 - 2 ^ 7 - 2 ^ 6 - 2 ^ 4 - 1

def SECP256K1_ORDER : Nat :=
  0xfffffffffffffffffffffffffffffffebaaedce6af48a03bbfd25e8cd0364141

/-- A point on the curve, as the pair of coordinates carried by the
Python `ECPoint` objects (all claims below instantiate the curve
parameters with the secp256k1 constants, matching the defaulted
constructor arguments). -/
structure ECPoint where
  x : Nat
  y : Nat
  deriving DecidableEq, Repr

/-- `ECPoint.is_contained`: membership test for the curve
`y^2 = x^3 + a*x + b (mod m)`. -/
def is_contained (x y a b m : Int) : Bool :=
  (y ^ 2 - (x ^ 3 + a * x + b)) % m == 0

/-- The `ECPoint` constructor with the secp256k1 defaults: accepts
`(0, 0)` unchecked, asserts curve membership otherwise
(`AssertionError` is modelled as `Res.exc`). -/
def mkECPoint (x y : Nat) : Res ECPoint :=
  if x ≠ 0 ∨ y ≠ 0 then
    if is_contained x y SECP256K1_A SECP256K1_B SECP256K1_P then .ok ⟨x, y⟩
    else .exc
  else .ok ⟨x, y⟩

/-- `ECPoint.infinity()`: the `(0, 0)` sentinel. -/
def ECPoint.infinity : ECPoint := ⟨0, 0⟩

/-- `ECPoint.double`: the result is assembled on an `ECPoint(0, 0)`
placeholder by direct coordinate assignment, bypassing the constructor
check, hence no membership test here. -/
def ECPoint.double (p : ECPoint) : Res ECPoint :=
  if p = ECPoint.infinity then .ok ECPoint.infinity
  else
    let dy := (3 * p.x * p.x + SECP256K1_A) % SECP256K1_P
    let dx := 2 * p.y % SECP256K1_P
    match mod_inverse dx SECP256K1_P with
    | .ok v =>
      let s := dy * v % SECP256K1_P
      let x3 := natMod ((s : Int) * s - p.x - p.x) SECP256K1_P
      let y3 := natMod ((s : Int) * ((p.x : Int) - x3) - p.y) SECP256K1_P
      .ok ⟨x3, y3⟩
    | .verr m => .verr m
    | .exc => .exc

/-- `ECPoint.add`: chord addition with the infinity and vertical-line
special cases; also assembles its result coordinate-wise. -/
def ECPoint.add (p1 p2 : ECPoint) : Res ECPoint :=
  if p1 = ECPoint.infinity then .ok p2
  else if p2 = ECPoint.infinity then .ok p1
  else if p1.x = p2.x then
    if p1.y = p2.y then ECPoint.double p1 else .ok ECPoint.infinity
  else
    let dy := natMod ((p2.y : Int) - p1.y) SECP256K1_P
    let dx := natMod ((p2.x : Int) - p1.x) SECP256K1_P
    match mod_inverse dx SECP256K1_P with
    | .ok v =>
      let s := dy * v % SECP256K1_P
      let x3 := natMod ((s : Int) * s - p1.x - p2.x) SECP256K1_P
      let y3 := natMod ((s : Int) * ((p1.x : Int) - x3) - p1.y) SECP256K1_P
      .ok ⟨x3, y3⟩
    | .verr m => .verr m
    | .exc => .exc

/-- `ECPoint.__add__`: the `+` operator doubles when both coordinates
coincide and otherwise delegates to `add`. -/
def ecOpAdd (p1 p2 : ECPoint) : Res ECPoint :=
  if p1.x = p2.x ∧ p1.y = p2.y then ECPoint.double p1 else ECPoint.add p1 p2

/-- The `while` loop of `ECPoint.multiply`; one fuel unit per iteration.
`x` is an `Int` because the method starts from `k - 1`, which is `-1`
for `k = 0`. -/
def mulLoop : Nat → ECPoint → ECPoint → Int → Res ECPoint
  | 0, _, _, _ => .exc
  | f + 1, temp, p, x =>
    if 0 < x then
      if x % 2 ≠ 0 then
        match (if temp = p then ECPoint.double temp else ECPoint.add temp p) with
        | .ok temp2 =>
          match ECPoint.double p with
          | .ok p2 => mulLoop f temp2 p2 ((x - 1) / 2)
          | .verr m => .verr m
          | .exc => .exc
        | .verr m => .verr m
        | .exc => .exc
      else
        match ECPoint.double p with
        | .ok p2 => mulLoop f temp p2 (x / 2)
        | .verr m => .verr m
        | .exc => .exc
    else .ok temp

/-- `ECPoint.multiply`: copies the input through the checked constructor,
then runs double-and-add on `x = k - 1`. -/
def ECPoint.multiply (p : ECPoint) (k : Int) : Res ECPoint :=
  match mkECPoint p.x p.y with
  | .ok temp => mulLoop (k.toNat + 1) temp p (k - 1)
  | .verr m => .verr m
  | .exc => .exc

/-- `ECPoint.get_secp256k1_y`: the candidate root `z ^ ((p+1)/4) mod p`,
with the constructor-style assertion that it actually lies on the curve. -/
def get_secp256k1_y (x : Nat) : Res Nat :=
  let y := powModF 256 (x ^ 3 + x * SECP256K1_A + SECP256K1_B)
    ((SECP256K1_P + 1) / 4) SECP256K1_P
  if is_contained x y SECP256K1_A SECP256K1_B SECP256K1_P then .ok y else .exc

/-- `KeysBTC.get_generator_point()`. -/
def get_generator_point : ECPoint := ⟨SECP256K1_GX, SECP256K1_GY⟩

/-- `KeysBTC.__init__` for an explicitly supplied key (the bytes branch):
the only validation is `assert bytes2int(self._private_key) > 0`
(an `AssertionError`, modelled `Res.exc`); the object keeps the raw
bytes. -/
def KeysBTC_init (private_key : List Nat) : Res (List Nat) :=
  if 0 < bytes2int private_key then .ok private_key else .exc

/-- A point the claims accept as input to the group operations: the
infinity sentinel or a pair satisfying the secp256k1 curve equation. -/
def ECPoint.valid (p : ECPoint) : Prop :=
  p = ECPoint.infinity ∨
    is_contained p.x p.y SECP256K1_A SECP256K1_B SECP256K1_P = true


/- ------------------------------------------------------------------
SHA-256 (FIPS 180-4), fully embedded: `utils.sha256` delegates to
`hashlib.sha256`, which this section models bit-exactly so that the
double-SHA256 checksums appearing in the claims are concrete.
------------------------------------------------------------------ -/

/-- Round constants of SHA-256. -/
def sha256K : List Nat :=
  [1116352408, 1899447441, 3049323471, 3921009573,
   961987163, 1508970993, 2453635748, 2870763221,
   3624381080, 310598401, 607225278, 1426881987,
   1925078388, 2162078206, 2614888103, 3248222580,
   3835390401, 4022224774, 264347078, 604807628,
   770255983, 1249150122, 1555081692, 1996064986,
   2554220882, 2821834349, 2952996808, 3210313671,
   3336571891, 3584528711, 113926993, 338241895,
   666307205, 773529912, 1294757372, 1396182291,
   1695183700, 1986661051, 2177026350, 2456956037,
   2730485921, 2820302411, 3259730800, 3345764771,
   3516065817, 3600352804, 4094571909, 275423344,
   430227734, 506948616, 659060556, 883997877,
   958139571, 1322822218, 1537002063, 1747873779,
   1955562222, 2024104815, 2227730452, 2361852424,
   2428436474, 2756734187, 3204031479, 3329325298]

/-- Initial hash state of SHA-256. -/
def sha256H0 : List Nat :=
  [1779033703, 3144134277, 1013904242, 2773480762, 1359893119, 2600822924, 528734635, 1541459225]

/-- Word-size truncation to 32 bits. -/
def w32 (x : Nat) : Nat := x % 4294967296

/-- Right rotation on 32-bit words. -/
def rotr32 (x n : Nat) : Nat :=
  ((x >>> n) ||| (x <<< (32 - n))) % 4294967296

def bsig0 (x : Nat) : Nat := rotr32 x 2 ^^^ rotr32 x 13 ^^^ rotr32 x 22

def bsig1 (x : Nat) : Nat := rotr32 x 6 ^^^ rotr32 x 11 ^^^ rotr32 x 25

def ssig0 (x : Nat) : Nat := rotr32 x 7 ^^^ rotr32 x 18 ^^^ (x >>> 3)

def ssig1 (x : Nat) : Nat := rotr32 x 17 ^^^ rotr32 x 19 ^^^ (x >>> 10)

def chF (x y z : Nat) : Nat := (x &&& y) ^^^ ((x ^^^ 4294967295) &&& z)

def majF (x y z : Nat) : Nat := (x &&& y) ^^^ (x &&& z) ^^^ (y &&& z)

/-- Big-endian grouping of bytes into 32-bit words. -/
def toWords32 : List Nat → List Nat
  | a :: b :: c :: d :: rest =>
    (((a * 256 + b) * 256 + c) * 256 + d) :: toWords32 rest
  | _ => []

/-- Split a word list into 16-word blocks (fuelled). -/
def chunks16 : Nat → List Nat → List (List Nat)
  | 0, _ => []
  | _ + 1, [] => []
  | f + 1, ws => ws.take 16 :: chunks16 f (ws.drop 16)

/-- Message-schedule extension from 16 to 64 words. -/
def extendW : Nat → List Nat → List Nat
  | 0, w => w
  | n + 1, w =>
    let t := w.length
    extendW n (w ++ [w32 (ssig1 (w.getD (t - 2) 0) + w.getD (t - 7) 0 +
      ssig0 (w.getD (t - 15) 0) + w.getD (t - 16) 0)])

/-- One compression round; `kw` is `K[t] + W[t]` already truncated. -/
def sha256Round (st : List Nat) (kw : Nat) : List Nat :=
  match st with
  | [a, b, c, d, e, f, g, h] =>
    let t1 := w32 (h + bsig1 e + chF e f g + kw)
    let t2 := w32 (bsig0 a + majF a b c)
    [w32 (t1 + t2), a, b, c, w32 (d + t1), e, f, g]
  | st => st

/-- Compression of one 16-word block into the running hash state. -/
def sha256Block (H : List Nat) (block : List Nat) : List Nat :=
  let W := extendW 48 block
  let kws := List.zipWith (fun k w => w32 (k + w)) sha256K W
  let st := kws.foldl sha256Round H
  List.zipWith (fun h s => w32 (h + s)) H st

/-- FIPS 180-4 padding: `0x80`, zeros to 56 mod 64, 8-byte bit length. -/
def sha256Pad (msg : List Nat) : List Nat :=
  let L := msg.length
  msg ++ [128] ++ List.replicate ((120 - (L + 1) % 64) % 64) 0 ++
    int2bytesF 8 (8 * L)

/-- `utils.sha256` on bytes (via `hashlib.sha256`). -/
def sha256 (msg : List Nat) : List Nat :=
  let blocks := chunks16 (toWords32 (sha256Pad msg)).length (toWords32 (sha256Pad msg))
  ((blocks.foldl sha256Block sha256H0).map (int2bytesF 4)).flatten


/-- `KeysBTC.privatekey_to_wif`: `0x80`-prefixed Base58 encoding with an
optional compression flag byte and a 4-byte double-SHA256 checksum. -/
def privatekey_to_wif (private_key : List Nat) (compressed : Bool) : List Char :=
  let wif := [128] ++ private_key ++ (if compressed then [1] else [])
  base58_encode (wif ++ pyslice (sha256 (sha256 wif)) 0 4)

/-- `KeysBTC.privatekey_from_wif`: decodes to 38 bytes and slices out
bytes 1..33; any exception inside is converted to the blanket
`ValueError` about the WIF.  No checksum verification happens. -/
def privatekey_from_wif (wif : List Char) : Res (List Nat) :=
  match base58_decode wif 38 with
  | .ok p => .ok (pyslice p 1 33)
  | _ => .verr .invalidWif


/-- The digest reduction shared by `KeysBTC.sign` and `KeysBTC.verify`:
`h = digest mod n`, mapped to `1` when it reduces to `0`. -/
def h_of_digest (hash : List Nat) : Nat :=
  if bytes2int hash % SECP256K1_ORDER = 0 then 1
  else bytes2int hash % SECP256K1_ORDER

/-- `KeysBTC.verify`, with the object's public point made an explicit
argument (the method reads it off `self`): note the final comparison is
`C.x == r1` on the raw coordinate, without reduction modulo `n`. -/
def verify (public_point : ECPoint) (hash r s : List Nat) : Res Bool :=
  let h := h_of_digest hash
  let r1 := bytes2int r
  match mod_inverse (bytes2int s) SECP256K1_ORDER with
  | .ok s_inv =>
    let u1 := h * s_inv % SECP256K1_ORDER
    let u2 := r1 * s_inv % SECP256K1_ORDER
    match ECPoint.multiply get_generator_point u1 with
    | .ok c1 =>
      match ECPoint.multiply public_point u2 with
      | .ok c2 =>
        match ecOpAdd c1 c2 with
        | .ok C => .ok (decide (C.x = r1))
        | .verr m => .verr m
        | .exc => .exc
      | .verr m => .verr m
      | .exc => .exc
    | .verr m => .verr m
    | .exc => .exc
  | .verr m => .verr m
  | .exc => .exc

/-- Counterexample data for C2: a curve point `T` whose x-coordinate is
`n + 2` (above the group order), and `Q = 2⁻¹·(T - G)`, so that with
`digest = s = 1` and `r = 2` the code computes `C = 1·G + 2·Q = T`. -/
def C2_T : ECPoint :=
  ⟨115792089237316195423570985008687907852837564279074904382605163141518161494339,
   24738801717713540165859037596706942650182884013760002261031960508407254471123⟩

def C2_Q : ECPoint :=
  ⟨11324825334622368608670761517470274451055506510179595387692523224099642050692,
   79825484310234268358498808553279075035125936125352022005387171889678070953051⟩

def C2_digest : List Nat := int2bytesF 32 1

def C2_r : List Nat := int2bytesF 32 2

def C2_s : List Nat := int2bytesF 32 1


/- ------------------------------------------------------------------
BIP32 layer (`bip32.py`).  HMAC-SHA512 and RIPEMD-160 are the external
hash collaborators of the spec and are passed in as `HashFns`.
------------------------------------------------------------------ -/

/-- The two hash collaborators used by child derivation. -/
structure HashFns where
  hmac512 : List Nat → List Nat → List Nat
  ripemd : List Nat → List Nat

/-- The key slot of an `ExtendedKey`: bytes for a private node, an
`ECPoint` for a public one (Python distinguishes them by `isinstance`). -/
inductive XKey where
  | priv : List Nat → XKey
  | pub : ECPoint → XKey
  deriving DecidableEq, Repr

/-- `bip32.ExtendedKey`: key material, chain code, depth (`level`),
child index and parent fingerprint. -/
structure ExtendedKey where
  key : XKey
  chain_code : List Nat
  level : Nat
  index : Nat
  fingerprint : List Nat
  deriving DecidableEq, Repr

def MAINNET_PUBLIC : List Nat := [4, 136, 178, 30]

def MAINNET_PRIVATE : List Nat := [4, 136, 173, 228]

/-- `KeysBTC.point_to_publickey`. -/
def point_to_publickey (point : ECPoint) (compressed : Bool) : Res (List Nat) :=
  if compressed then do
    let xb ← int2bytes point.x 32
    pure ((if point.y % 2 = 0 then [2] else [3]) ++ xb)
  else do
    let xb ← int2bytes point.x 32
    let yb ← int2bytes point.y 32
    pure ([4] ++ xb ++ yb)

/-- `KeysBTC.get_public_point`: `G * d` for the object's key bytes. -/
def get_public_point (private_key : List Nat) : Res ECPoint :=
  ECPoint.multiply get_generator_point (bytes2int private_key)

/-- `KeysBTC.get_public_key` (compressed form, the default). -/
def get_public_key (private_key : List Nat) : Res (List Nat) := do
  let P ← get_public_point private_key
  point_to_publickey P true

/-- `ExtendedKey.get_fingerprint`. -/
def get_fingerprint (hf : HashFns) (public_key : List Nat) : List Nat :=
  pyslice (hf.ripemd (sha256 public_key)) 0 4

/-- `ExtendedKey.serialize` (mainnet versions, as wired in the source). -/
def ExtendedKey.serialize (ek : ExtendedKey) : Res (List Char) := do
  let lvl ← int2bytes ek.level 1
  let idx ← int2bytes ek.index 4
  let ser_key ←
    match ek.key with
    | .priv k =>
      pure (MAINNET_PRIVATE ++ lvl ++ ek.fingerprint ++ idx ++
        ek.chain_code ++ [0] ++ k)
    | .pub P => do
      let pk ← point_to_publickey P true
      pure (MAINNET_PUBLIC ++ lvl ++ ek.fingerprint ++ idx ++
        ek.chain_code ++ pk)
  pure (base58_encode (ser_key ++ pyslice (sha256 (sha256 ser_key)) 0 4))

/-- `ExtendedKey.deserialize`: Base58-decode to 82 bytes, verify the
checksum, branch on the version bytes; for a public node the `y`
coordinate is recovered from `x` and the parity prefix, and the point
goes through the checked `ECPoint` constructor. -/
def ExtendedKey.deserialize (s : List Char) : Res ExtendedKey := do
  let ser_key ← base58_decode s 82
  if pyslice (sha256 (sha256 (ser_key.take 78))) 0 4 ≠ ser_key.drop 78 then
    .verr .wrongChecksum
  else
    let level := ser_key.getD 4 0
    let fingerprint := pyslice ser_key 5 9
    let index := bytes2int (pyslice ser_key 9 13)
    let chain_code := pyslice ser_key 13 45
    if ser_key.take 4 = MAINNET_PRIVATE then
      pure ⟨.priv (pyslice ser_key 46 78), chain_code, level, index, fingerprint⟩
    else if ser_key.take 4 = MAINNET_PUBLIC then do
      let x := bytes2int (pyslice ser_key 46 78)
      let y0 ← get_secp256k1_y x
      let y :=
        if ser_key.getD 45 0 = 2 then
          if y0 % 2 ≠ 0 then SECP256K1_P - y0 else y0
        else
          if y0 % 2 = 0 then SECP256K1_P - y0 else y0
      let P ← mkECPoint x y
      pure ⟨.pub P, chain_code, level, index, fingerprint⟩
    else .verr .invalidSer

/-- `BIP32.prv_to_child`. -/
def prv_to_child (hf : HashFns) (parent_prv : ExtendedKey) (index : Nat) :
    Res ExtendedKey :=
  match parent_prv.key with
  | .pub _ => .exc
  | .priv pk => do
    let ck ← KeysBTC_init pk
    let ser32_index ← int2bytes index 4
    let data ←
      if 2 ^ 31 ≤ index then
        pure ([0] ++ ck ++ ser32_index)
      else do
        let pubk ← get_public_key ck
        pure (pubk ++ ser32_index)
    let child_hash := hf.hmac512 parent_prv.chain_code data
    let child_hash_left := bytes2int (pyslice child_hash 0 32)
    let k_i := (child_hash_left + bytes2int ck) % SECP256K1_ORDER
    if SECP256K1_ORDER ≤ child_hash_left ∨ k_i = 0 then .verr .invalidChild
    else do
      let kb ← int2bytes k_i 32
      let pubk ← get_public_key ck
      pure ⟨.priv kb, child_hash.drop 32, parent_prv.level + 1, index,
        get_fingerprint hf pubk⟩

/-- `BIP32.pub_to_child`: the hardened-index test comes first, before
any other computation. -/
def pub_to_child (hf : HashFns) (parent_pub : ExtendedKey) (index : Nat) :
    Res ExtendedKey :=
  if 2 ^ 31 ≤ index then .verr .hardenedChild
  else
    match parent_pub.key with
    | .priv _ => .exc
    | .pub P => do
      let ser32_index ← int2bytes index 4
      let public_key ← point_to_publickey P true
      let child_hash := hf.hmac512 parent_pub.chain_code (public_key ++ ser32_index)
      let child_hash_left := bytes2int (pyslice child_hash 0 32)
      let mG ← ECPoint.multiply get_generator_point child_hash_left
      let K_i ← ecOpAdd mG P
      if SECP256K1_ORDER ≤ child_hash_left ∨ K_i = ECPoint.infinity then
        .verr .invalidChild
      else
        pure ⟨.pub K_i, child_hash.drop 32, parent_pub.level + 1, index,
          get_fingerprint hf public_key⟩

/-- A slot of `BIP32.keys_path`: Python stores either an `ExtendedKey`,
`None`, or — after a caught `ValueError` — the error message string
(identified here by its `VMsg` tag). -/
inductive PathVal where
  | key : ExtendedKey → PathVal
  | errStr : VMsg → PathVal
  | nothing : PathVal
  deriving DecidableEq, Repr

structure PathNode where
  prv : PathVal
  pub : PathVal
  deriving DecidableEq, Repr

/-- One iteration of the `build_keys_path` loop: each half derives a
child when the parent slot holds a key, catches `ValueError` and stores
the message in the slot, and lets any other exception escape.  A stored
error string fed back into derivation makes `KeysBTC(str)` raise a
`ValueError` from `bytes.fromhex` on the private side (caught again),
and an `AttributeError` on the public side (uncaught) unless the
hardened-index test fires first. -/
def buildStep (hf : HashFns) (node : PathNode) (index : Nat) : Res PathNode := do
  let newPrv ←
    match node.prv with
    | .nothing => pure PathVal.nothing
    | .key k =>
      match prv_to_child hf k index with
      | .ok c => pure (PathVal.key c)
      | .verr m => pure (PathVal.errStr m)
      | .exc => Res.exc
    | .errStr _ => pure (PathVal.errStr .fromhexError)
  let newPub ←
    match node.pub with
    | .nothing => pure PathVal.nothing
    | .key k =>
      match pub_to_child hf k index with
      | .ok c => pure (PathVal.key c)
      | .verr m => pure (PathVal.errStr m)
      | .exc => Res.exc
    | .errStr _ =>
      if 2 ^ 31 ≤ index then pure (PathVal.errStr .hardenedChild) else Res.exc
  pure ⟨newPrv, newPub⟩

def buildLoop (hf : HashFns) : List Nat → PathNode → Res (List PathNode)
  | [], _ => .ok []
  | i :: rest, node => do
    let node2 ← buildStep hf node i
    let tail ← buildLoop hf rest node2
    pure (node2 :: tail)

/-- `BIP32.__init__` followed by `build_keys_path`: the constructor
pairs a private master with its derived public master (or keeps `None`
on the private side for a public-only master), and the loop appends one
`PathNode` per path index. -/
def build_keys_path (hf : HashFns) (master : ExtendedKey)
    (level_indexes : List Nat) : Res (List PathNode) :=
  match master.key with
  | .priv pk => do
    let P ← get_public_point pk
    let node0 : PathNode :=
      ⟨.key master, .key ⟨.pub P, master.chain_code, 0, 0, [0, 0, 0, 0]⟩⟩
    let tail ← buildLoop hf level_indexes node0
    pure (node0 :: tail)
  | .pub _ => do
    let node0 : PathNode := ⟨.nothing, .key master⟩
    let tail ← buildLoop hf level_indexes node0
    pure (node0 :: tail)

/-- Concrete public-only master node used for the C4 evidence. -/
def C4_master : ExtendedKey :=
  ⟨.pub get_generator_point, List.replicate 32 0, 0, 0, [0, 0, 0, 0]⟩

/-- Concrete hash collaborators for the C8 witness: HMAC-SHA512 returns
a 64-byte block whose left half has value `3`, RIPEMD-160 a constant
20-byte string. -/
def hfC8 : HashFns :=
  ⟨fun _ _ => List.replicate 31 0 ++ [3] ++ List.replicate 32 5,
   fun _ => List.replicate 20 9⟩

/- ------------------------------------------------------------------
Lemmas: byte-string and base58 conversions.
------------------------------------------------------------------ -/

theorem bytes2int_append (l : List Nat) (d : Nat) :
    bytes2int (l ++ [d]) = 256 * bytes2int l + d := by
  simp [bytes2int, List.foldl_append]
  ring

theorem bytes2int_lt (b : List Nat) (hb : ∀ x ∈ b, x < 256) :
    bytes2int b < 256 ^ b.length := by
  induction b using List.reverseRecOn with
  | nil => simp [bytes2int]
  | append_singleton l d ih =>
    have hd : d < 256 := hb d (by simp)
    have hl := ih (fun x hx => hb x (by simp [hx]))
    rw [bytes2int_append]
    simp only [List.length_append, List.length_singleton]
    calc 256 * bytes2int l + d < 256 * bytes2int l + 256 := by omega
    _ = 256 * (bytes2int l + 1) := by ring
    _ ≤ 256 * 256 ^ l.length := by
        have : bytes2int l + 1 ≤ 256 ^ l.length := hl
        exact Nat.mul_le_mul_left _ this
    _ = 256 ^ (l.length + 1) := by ring

theorem int2bytesF_bytes2int (b : List Nat) (hb : ∀ x ∈ b, x < 256) :
    int2bytesF b.length (bytes2int b) = b := by
  induction b using List.reverseRecOn with
  | nil => simp [int2bytesF, bytes2int]
  | append_singleton l d ih =>
    have hd : d < 256 := hb d (by simp)
    have hl := ih (fun x hx => hb x (by simp [hx]))
    rw [bytes2int_append]
    have hlen : (l ++ [d]).length = l.length + 1 := by simp
    rw [hlen]
    have hdiv : (256 * bytes2int l + d) / 256 = bytes2int l := by
      omega
    have hmod : (256 * bytes2int l + d) % 256 = d := by
      omega
    simp [int2bytesF, hdiv, hmod, hl]

theorem alphaIndex_b58chr : ∀ d : Nat, d < 58 →
    alphaIndex BASE58_ALPHABET (b58chr d) = .ok d := by
  decide

theorem b58_digit_lt (d : Nat) (hd : d ∈ Nat.digits 58 (n : Nat)) : d < 58 :=
  Nat.digits_lt_base (by norm_num) hd

theorem b58decAux_digits : ∀ (ds : List Nat) (multi acc : Nat),
    (∀ d ∈ ds, d < 58) →
    b58decAux (ds.map b58chr) multi acc = .ok (acc + multi * Nat.ofDigits 58 ds) := by
  intro ds
  induction ds with
  | nil => intro multi acc _; simp [b58decAux, Nat.ofDigits]
  | cons d rest ih =>
    intro multi acc hds
    have hd : d < 58 := hds d (by simp)
    simp only [List.map_cons, b58decAux, alphaIndex_b58chr d hd]
    rw [ih (multi * 58) (acc + multi * d) (fun x hx => hds x (by simp [hx]))]
    congr 1
    rw [Nat.ofDigits_cons]
    ring

theorem b58encAux_eq : ∀ (f num : Nat) (acc : List Char), num < f →
    b58encAux f num acc = ((Nat.digits 58 num).reverse.map b58chr) ++ acc := by
  intro f
  induction f with
  | zero => omega
  | succ f ih =>
    intro num acc hf
    by_cases h58 : 58 ≤ num
    · have hdiv : num / 58 < f := by
        have h1 : num / 58 < num := Nat.div_lt_self (by omega) (by norm_num)
        omega
      have hrec := ih (num / 58) (b58chr (num % 58) :: acc) hdiv
      have hdig : Nat.digits 58 num = num % 58 :: Nat.digits 58 (num / 58) :=
        Nat.digits_def' (by norm_num) (by omega)
      rw [show b58encAux (f + 1) num acc
            = b58encAux f (num / 58) (b58chr (num % 58) :: acc) from by
          simp [b58encAux, if_pos h58]]
      rw [hrec, hdig]
      simp
    · by_cases h0 : num = 0
      · simp [b58encAux, h0, if_neg (by omega : ¬ 58 ≤ (0:Nat))]
      · have hdig : Nat.digits 58 num = [num] := by
          rw [Nat.digits_def' (by norm_num : 1 < 58) (by omega)]
          rw [Nat.mod_eq_of_lt (by omega), Nat.div_eq_of_lt (by omega)]
          simp
        simp [b58encAux, if_neg h58, h0, hdig]


/-- Shared round-trip fact: decoding an encoded byte string at its own
length restores it exactly (the decoder's left-padding restores the
leading zero bytes the encoder dropped). -/
theorem base58_enc_dec (b : List Nat) (hb : ∀ x ∈ b, x < 256) :
    base58_decode (base58_encode b) b.length = .ok b := by
  unfold base58_encode base58_decode
  rw [b58encAux_eq (bytes2int b + 1) (bytes2int b) [] (by omega)]
  rw [List.append_nil, List.map_reverse, List.reverse_reverse]
  have hdigs := b58decAux_digits (Nat.digits 58 (bytes2int b)) 1 0
    (fun d hd => Nat.digits_lt_base (by norm_num) hd)
  rw [Nat.ofDigits_digits] at hdigs
  simp only [Bind.bind, Res.bind, hdigs, Nat.zero_add, Nat.one_mul]
  unfold int2bytes
  rw [if_pos (bytes2int_lt b hb), int2bytesF_bytes2int b hb]

end SimpleBTC

namespace SimpleBTC

/- ------------------------------------------------------------------
Lemmas: extended Euclid and modular exponentiation.
------------------------------------------------------------------ -/

theorem egcdF_bezout (f : Nat) (a b : Int) :
    a * (egcdF f a b).2.1 + b * (egcdF f a b).2.2 = (egcdF f a b).1 := by
  induction f generalizing a b with
  | zero => simp [egcdF]
  | succ f ih =>
    by_cases h : a = 0
    · simp [egcdF, h]
    · have h2 := ih (b % a) a
      simp only [egcdF, if_neg h]
      have key := Int.emod_def b a
      linear_combination h2 - (egcdF f (b % a) a).2.1 * key

theorem mod_inverse_ok {a m v : Nat} (hm : 0 < m)
    (h : mod_inverse a m = .ok v) : a * v % m = 1 % m := by
  unfold mod_inverse at h
  by_cases hg : (egcdF (a + 2) (a : Int) (m : Int)).1 = 1
  · rw [if_pos hg] at h
    have hb := egcdF_bezout (a + 2) (a : Int) (m : Int)
    rw [hg] at hb
    have hv : (v : Int) = (egcdF (a + 2) (a : Int) (m : Int)).2.1 % (m : Int) := by
      have : v = natMod (egcdF (a + 2) (a : Int) (m : Int)).2.1 m := by
        cases h; rfl
    
      rw [this, natMod]
      exact Int.toNat_of_nonneg
        (Int.emod_nonneg _ (by exact_mod_cast hm.ne'))
    have : ((a * v : Nat) : Int) % (m : Int) = (1 : Int) % (m : Int) := by
      push_cast
      rw [hv, Int.mul_emod, Int.emod_emod_of_dvd _ dvd_rfl]
      rw [← Int.mul_emod]
      have : (a : Int) * (egcdF (a + 2) (a : Int) (m : Int)).2.1
          = 1 - (m : Int) * (egcdF (a + 2) (a : Int) (m : Int)).2.2 := by
        linear_combination hb
      rw [this, sub_eq_add_neg, ← mul_neg, Int.add_mul_emod_self_left]
    exact_mod_cast this
  · rw [if_neg hg] at h
    cases h

theorem powModF_eq : ∀ (f b e m : Nat), 0 < m → e < 2 ^ f →
    powModF f b e m = b ^ e % m := by
  intro f
  induction f with
  | zero =>
    intro b e m hm he
    have : e = 0 := by simpa using he
    simp [powModF, this]
  | succ f ih =>
    intro b e m hm he
    by_cases h0 : e = 0
    · simp [powModF, h0]
    · have h2 : e / 2 < 2 ^ f := by
        rw [pow_succ] at he
        omega
      have hr := ih b (e / 2) m hm h2
      by_cases hev : e % 2 = 0
      · simp only [powModF, if_neg h0, if_pos hev, hr]
        rw [← Nat.mul_mod, ← pow_add]
        congr 2
        omega
      · simp only [powModF, if_neg h0, if_neg hev, hr]
        rw [← Nat.mul_mod, Nat.mod_mul_mod, ← pow_add, ← pow_succ]
        congr 2
        omega

end SimpleBTC

namespace SimpleBTC

/- ------------------------------------------------------------------
Claim theorems: C10 (base58 round trip), C3 (multiply by zero),
C7 (private-scalar validation).
------------------------------------------------------------------ -/

/-- C10: for every byte string `b` (empty and leading-zero strings
included), `base58_decode (base58_encode b) b.length = b`; moreover the
encoder drops leading zero bytes (it encodes the big-endian integer
value only), so the round trip restores them solely through the
decoder's left-padding. -/
theorem claim_C10_base58_roundtrip (b : List Nat) (hb : ∀ x ∈ b, x < 256) :
    base58_decode (base58_encode b) b.length = .ok b ∧
    base58_encode (0 :: b) = base58_encode b := by
  refine ⟨base58_enc_dec b hb, ?_⟩
  have h0 : bytes2int (0 :: b) = bytes2int b := by
    simp [bytes2int]
  simp [base58_encode, h0]

theorem claim_C10_base58_roundtrip_witness :
    (∀ x ∈ [0, 0, 129, 255, 58, 1], x < 256) ∧
    (base58_decode (base58_encode [0, 0, 129, 255, 58, 1]) 6
        = .ok [0, 0, 129, 255, 58, 1] ∧
      base58_encode (0 :: [0, 0, 129, 255, 58, 1])
        = base58_encode [0, 0, 129, 255, 58, 1]) :=
  ⟨by decide, claim_C10_base58_roundtrip [0, 0, 129, 255, 58, 1] (by decide)⟩

/-- C3: the claim (and §8 of the spec) requires `multiply(P, 0) = ∞` for
every valid point `P`; evaluating the code at the generator point shows
`multiply(G, 0)` returns `G` itself: the method starts from a copy of
`P` and the loop on `k - 1 = -1` never executes, so the degenerate case
yields the input point, not the infinity sentinel. -/
theorem claim_C3_multiply_zero_returns_input :
    ECPoint.multiply get_generator_point 0 = .ok get_generator_point ∧
    get_generator_point ≠ ECPoint.infinity := by
  constructor
  · decide
  · decide

/-- C7 counterexample: the claim says a supplied scalar `≥ n` is
rejected; the constructor accepts the exact 32-byte encoding of the
curve order `n` (its only check is `bytes2int(key) > 0`). -/
theorem claim_C7_counterexample :
    KeysBTC_init (int2bytesF 32 SECP256K1_ORDER)
        = .ok (int2bytesF 32 SECP256K1_ORDER) ∧
    bytes2int (int2bytesF 32 SECP256K1_ORDER) = SECP256K1_ORDER := by
  constructor
  · decide
  · decide

/-- C7 (amended): key-material construction from an explicit scalar
succeeds exactly when the scalar is positive — zero is rejected (by an
`AssertionError`, not a typed `InvalidKeyError`) and no upper bound
against the curve order is enforced. -/
theorem claim_C7_amended (pk : List Nat) :
    (0 < bytes2int pk → KeysBTC_init pk = .ok pk) ∧
    (bytes2int pk = 0 → KeysBTC_init pk = .exc) := by
  constructor
  · intro h
    simp [KeysBTC_init, h]
  · intro h
    simp [KeysBTC_init, h]

theorem claim_C7_amended_witness :
    ((0 < bytes2int [1] → KeysBTC_init [1] = .ok [1]) ∧
      (bytes2int [1] = 0 → KeysBTC_init [1] = .exc)) ∧
    ((0 < bytes2int [0] → KeysBTC_init [0] = .ok [0]) ∧
      (bytes2int [0] = 0 → KeysBTC_init [0] = .exc)) ∧
    0 < bytes2int [1] ∧ bytes2int [0] = 0 :=
  ⟨claim_C7_amended [1], claim_C7_amended [0], by decide, by decide⟩

end SimpleBTC

namespace SimpleBTC

set_option maxRecDepth 1000000

/-- Sanity check of the SHA-256 embedding: FIPS vector for the empty
message. -/
theorem sha256_vector_empty : sha256 [] = [227, 176, 196, 66, 152, 252, 28, 20, 154, 251, 244, 200, 153, 111, 185, 36, 39, 174, 65, 228, 100, 155, 147, 76, 164, 149, 153, 27, 120, 82, 184, 85] := by decide

/-- Sanity check of the SHA-256 embedding: FIPS vector for "abc". -/
theorem sha256_vector_abc : sha256 [97, 98, 99] = [186, 120, 22, 191, 143, 1, 207, 234, 65, 65, 64, 222, 93, 174, 34, 35, 176, 3, 97, 163, 150, 23, 122, 156, 180, 16, 255, 97, 242, 0, 21, 173] := by decide

end SimpleBTC

namespace SimpleBTC

set_option maxRecDepth 1000000

/-- C6 counterexample: a concrete WIF string that decodes cleanly to 38
bytes whose stored checksum `[0,0,0,0]` differs from the double-SHA256
checksum of its payload; `privatekey_from_wif` nevertheless returns the
key bytes instead of failing. -/
theorem claim_C6_counterexample :
    base58_decode
        (base58_encode (([128] ++ List.replicate 32 17 ++ [1]) ++ [0, 0, 0, 0])) 38
      = .ok (([128] ++ List.replicate 32 17 ++ [1]) ++ [0, 0, 0, 0]) ∧
    pyslice (sha256 (sha256 ([128] ++ List.replicate 32 17 ++ [1]))) 0 4
      ≠ [0, 0, 0, 0] ∧
    privatekey_from_wif
        (base58_encode (([128] ++ List.replicate 32 17 ++ [1]) ++ [0, 0, 0, 0]))
      = .ok (List.replicate 32 17) := by
  refine ⟨by decide, by decide, by decide⟩

/-- C6 (amended): `privatekey_from_wif` never inspects the checksum:
whenever Base58 decoding to 38 bytes succeeds it returns bytes 1..33 of
the result — matching or not — and it fails (with the blanket
`ValueError`, not a typed `InvalidEncodingError`) exactly when decoding
itself raises. -/
theorem claim_C6_amended (w : List Char) :
    (∀ p, base58_decode w 38 = .ok p →
      privatekey_from_wif w = .ok (pyslice p 1 33)) ∧
    (∀ e, base58_decode w 38 = .verr e →
      privatekey_from_wif w = .verr .invalidWif) ∧
    (base58_decode w 38 = .exc → privatekey_from_wif w = .verr .invalidWif) := by
  refine ⟨?_, ?_, ?_⟩
  · intro p hp
    simp [privatekey_from_wif, hp]
  · intro e he
    simp [privatekey_from_wif, he]
  · intro he
    simp [privatekey_from_wif, he]

theorem claim_C6_amended_witness :
    privatekey_from_wif
        (base58_encode (([128] ++ List.replicate 32 17 ++ [1]) ++ [0, 0, 0, 0]))
      = .ok (pyslice (([128] ++ List.replicate 32 17 ++ [1]) ++ [0, 0, 0, 0]) 1 33) ∧
    privatekey_from_wif ['0'] = .verr .invalidWif :=
  ⟨(claim_C6_amended _).1 _ (by decide),
   (claim_C6_amended ['0']).2.1 .base58Char (by decide)⟩

end SimpleBTC

namespace SimpleBTC

set_option maxRecDepth 1000000

/-- C2 counterexample: at the public point `C2_Q` (on the curve), digest
`1`, signature `(r, s) = (2, 1)`, the spec-side quantities are `w = 1`,
`u1 = 1`, `u2 = 2`, and `C = u1·G + u2·Q` (computed by the library's own
point operations) is `C2_T` with `C.x mod n = 2 = r`; the claim therefore
requires `verify = true`, but the code compares the unreduced `C.x`
(which is `n + 2`) against `r` and returns `false`. -/
theorem claim_C2_counterexample :
    is_contained C2_Q.x C2_Q.y SECP256K1_A SECP256K1_B SECP256K1_P = true ∧
    mod_inverse (bytes2int C2_s) SECP256K1_ORDER = .ok 1 ∧
    h_of_digest C2_digest * 1 % SECP256K1_ORDER = 1 ∧
    bytes2int C2_r * 1 % SECP256K1_ORDER = 2 ∧
    (do
      let c1 ← ECPoint.multiply get_generator_point 1
      let c2 ← ECPoint.multiply C2_Q 2
      ecOpAdd c1 c2) = .ok C2_T ∧
    C2_T.x % SECP256K1_ORDER = bytes2int C2_r ∧
    C2_T.x ≠ bytes2int C2_r ∧
    verify C2_Q C2_digest C2_r C2_s = .ok false := by
  refine ⟨by decide, by decide, by decide, by decide, by decide, by decide,
    by decide, by decide⟩

/-- C2 (amended): `verify` is the pure predicate
`C.x == r` — the comparison uses the raw x-coordinate of
`C = u1·G + u2·publicPoint` (`u1 = h·s⁻¹ mod n`, `u2 = r·s⁻¹ mod n`,
`h = digest mod n` mapped to `1` at `0`) without reducing `C.x` modulo
`n` first. -/
theorem claim_C2_amended (pub : ECPoint) (hash r s : List Nat) (w : Nat)
    (c1 c2 C : ECPoint)
    (hw : mod_inverse (bytes2int s) SECP256K1_ORDER = .ok w)
    (h1 : ECPoint.multiply get_generator_point
      (((h_of_digest hash * w % SECP256K1_ORDER : Nat) : Int)) = .ok c1)
    (h2 : ECPoint.multiply pub
      (((bytes2int r * w % SECP256K1_ORDER : Nat) : Int)) = .ok c2)
    (h3 : ecOpAdd c1 c2 = .ok C) :
    verify pub hash r s = .ok (decide (C.x = bytes2int r)) := by
  unfold verify
  rw [hw]
  dsimp only
  rw [h1]
  dsimp only
  rw [h2]
  dsimp only
  rw [h3]

theorem claim_C2_amended_witness :
    verify C2_Q C2_digest C2_r C2_s
      = .ok (decide (C2_T.x = bytes2int C2_r)) :=
  claim_C2_amended C2_Q C2_digest C2_r C2_s 1
    get_generator_point
    ⟨113092439379147512330550956969164312640371756721842242904822234408111654615751,
     51420421296861289343251395726585760616048339575088996329623468434983946458701⟩
    C2_T (by decide) (by decide) (by decide) (by decide)

end SimpleBTC

namespace SimpleBTC

set_option maxRecDepth 1000000

/-- C4: the claim (and §9 of the spec) requires a failed derivation step
to surface as a typed error and never to store a non-key value in the
key path.  Evaluating `build_keys_path` on a public-only master and the
path `[2^31]` (whose single step raises the hardened-derivation
`ValueError`) shows the call succeeds and stores the stringified error
message in place of the level-1 public key — for every choice of the
hash collaborators, since the failure happens before any hashing. -/
theorem claim_C4_error_stored_as_key (hf : HashFns) :
    build_keys_path hf C4_master [2 ^ 31]
      = .ok [⟨.nothing, .key C4_master⟩,
             ⟨.nothing, .errStr .hardenedChild⟩] := by
  rfl

/-- C8: `pub_to_child` on any index `≥ 2^31` fails with the
hardened-derivation `ValueError` before doing anything else; on an
index `< 2^31` it derives `K_i = IL·G + parentPoint` with
`IL = bytes2int(HMAC-SHA512(chainCode, serP(parent) ‖ ser32(index))[0:32])`
and fails with the invalid-derivation `ValueError` when `IL ≥ n` or the
child point is the identity. -/
theorem claim_C8_pub_to_child (hf : HashFns) (parent : ExtendedKey)
    (index : Nat) :
    (2 ^ 31 ≤ index → pub_to_child hf parent index = .verr .hardenedChild) ∧
    (∀ P pubk mG Ki,
      parent.key = .pub P →
      index < 2 ^ 31 →
      point_to_publickey P true = .ok pubk →
      ECPoint.multiply get_generator_point
        ((bytes2int (pyslice (hf.hmac512 parent.chain_code
          (pubk ++ int2bytesF 4 index)) 0 32) : Nat) : Int) = .ok mG →
      ecOpAdd mG P = .ok Ki →
      pub_to_child hf parent index =
        (if SECP256K1_ORDER ≤ bytes2int (pyslice (hf.hmac512 parent.chain_code
              (pubk ++ int2bytesF 4 index)) 0 32) ∨ Ki = ECPoint.infinity
          then .verr .invalidChild
          else .ok ⟨.pub Ki,
            (hf.hmac512 parent.chain_code (pubk ++ int2bytesF 4 index)).drop 32,
            parent.level + 1, index, get_fingerprint hf pubk⟩)) := by
  constructor
  · intro h
    unfold pub_to_child
    rw [if_pos h]
  · intro P pubk mG Ki hP hidx hpubk hmG hKi
    have h31 : ¬ 2 ^ 31 ≤ index := by omega
    have hser : int2bytes index 4 = .ok (int2bytesF 4 index) := by
      unfold int2bytes
      rw [if_pos (by norm_num; omega)]
    unfold pub_to_child
    rw [if_neg h31, hP]
    simp only [Bind.bind, Res.bind, hser, hpubk, hmG, hKi]
    rfl

theorem claim_C8_pub_to_child_witness :
    pub_to_child hfC8 C4_master (2 ^ 31) = .verr .hardenedChild ∧
    pub_to_child hfC8 C4_master 0 =
      (if SECP256K1_ORDER ≤ 3 ∨
          (⟨103388573995635080359749164254216598308788835304023601477803095234286494993683,
            37057141145242123013015316630864329550140216928701153669873286428255828810018⟩
            : ECPoint) = ECPoint.infinity
        then .verr .invalidChild
        else .ok ⟨.pub
          ⟨103388573995635080359749164254216598308788835304023601477803095234286494993683,
           37057141145242123013015316630864329550140216928701153669873286428255828810018⟩,
          List.replicate 32 5, 1, 0, [9, 9, 9, 9]⟩) :=
  ⟨(claim_C8_pub_to_child hfC8 C4_master (2 ^ 31)).1 (by decide),
   (claim_C8_pub_to_child hfC8 C4_master 0).2
     get_generator_point
     ([2] ++ int2bytesF 32 SECP256K1_GX)
     ⟨112711660439710606056748659173929673102114977341539408544630613555209775888121,
      25583027980570883691656905877401976406448868254816295069919888960541586679410⟩
     ⟨103388573995635080359749164254216598308788835304023601477803095234286494993683,
      37057141145242123013015316630864329550140216928701153669873286428255828810018⟩
     rfl (by decide) (by decide) (by decide) (by decide)⟩

end SimpleBTC

namespace SimpleBTC

set_option maxRecDepth 1000000
set_option exponentiation.threshold 1000

/-- Lucas primality reduced to kernel-checkable computations: `n` is
prime if some `a` has `a^(n-1) ≡ 1 (mod n)` while `a^((n-1)/q) ≢ 1` for
every prime `q` of a complete factorisation `qs` of `n - 1`. -/
theorem lucas_cert (n a : Nat) (qs : List (Nat × Nat))
    (h1 : 1 < n)
    (hsz : n - 1 < 2 ^ 512)
    (hfact : (qs.map (fun pe => pe.1 ^ pe.2)).prod = n - 1)
    (hq : ∀ pe ∈ qs, Nat.Prime pe.1)
    (hpow : powModF 512 a (n - 1) n = 1 % n)
    (hdiv : ∀ pe ∈ qs, powModF 512 a ((n - 1) / pe.1) n ≠ 1 % n) :
    Nat.Prime n := by
  have hn0 : 0 < n := by omega
  have hcast : ∀ e : Nat, e < 2 ^ 512 →
      ((a : ZMod n) ^ e = 1 ↔ powModF 512 a e n = 1 % n) := by
    intro e he
    rw [powModF_eq 512 a e n hn0 he]
    constructor
    · intro h
      have h2 : ((a ^ e : Nat) : ZMod n) = ((1 : Nat) : ZMod n) := by
        push_cast
        simpa using h
      exact (ZMod.natCast_eq_natCast_iff _ _ _).mp h2
    · intro h
      have h2 := (ZMod.natCast_eq_natCast_iff (a ^ e) 1 n).mpr h
      push_cast at h2
      simpa using h2
  apply lucas_primality n (a : ZMod n)
  · exact (hcast (n - 1) hsz).mpr hpow
  · intro q hqprime hqdvd
    have hqmem : ∃ pe ∈ qs, q = pe.1 := by
      have hd : q ∣ (qs.map (fun pe => pe.1 ^ pe.2)).prod := by
        rw [hfact]
        exact hqdvd
      obtain ⟨x, hx, hqx⟩ := (Nat.Prime.prime hqprime).dvd_prod_iff.mp hd
      obtain ⟨pe, hpe, rfl⟩ := List.mem_map.mp hx
      refine ⟨pe, hpe, ?_⟩
      have h3 := hqprime.dvd_of_dvd_pow hqx
      exact (Nat.prime_dvd_prime_iff_eq hqprime (hq pe hpe)).mp h3
    obtain ⟨pe, hpe, rfl⟩ := hqmem
    have hdlt : (n - 1) / pe.1 < 2 ^ 512 :=
      lt_of_le_of_lt (Nat.div_le_self _ _) hsz
    intro hcontra
    exact hdiv pe hpe ((hcast _ hdlt).mp hcontra)


/- ------------------------------------------------------------------
Primality of the secp256k1 field characteristic, via Pratt/Lucas
certificates: `lucas_cert` reduces `Nat.Prime n` to kernel-checkable
`powModF` computations plus the primality of the listed factors of
`n - 1`.
------------------------------------------------------------------ -/

theorem prime_2 : Nat.Prime 2 := by norm_num

theorem prime_3 : Nat.Prime 3 := by norm_num

theorem prime_5 : Nat.Prime 5 := by norm_num

theorem prime_7 : Nat.Prime 7 := by norm_num

theorem prime_11 : Nat.Prime 11 := by norm_num

theorem prime_29 : Nat.Prime 29 := by norm_num

theorem prime_31 : Nat.Prime 31 := by norm_num

theorem prime_1627 : Nat.Prime 1627 := by norm_num

theorem prime_2621 : Nat.Prime 2621 := by norm_num

theorem prime_2657 : Nat.Prime 2657 := by norm_num

theorem prime_4423 : Nat.Prime 4423 := by norm_num

theorem prime_5323 : Nat.Prime 5323 := by norm_num

theorem prime_7723 : Nat.Prime 7723 := by norm_num

theorem prime_13441 : Nat.Prime 13441 := by norm_num

theorem prime_24809 : Nat.Prime 24809 := by norm_num

theorem prime_41201 : Nat.Prime 41201 := by norm_num

theorem prime_96557 : Nat.Prime 96557 := by norm_num

theorem prime_53 : Nat.Prime 53 := by norm_num

theorem prime_971 : Nat.Prime 971 := by norm_num

theorem prime_1373 : Nat.Prime 1373 := by norm_num

theorem prime_20113 : Nat.Prime 20113 := by norm_num

theorem prime_1206781 : Nat.Prime 1206781 := by
  apply lucas_cert 1206781 10 [(2, 2), (3, 1), (5, 1), (20113, 1)]
  · norm_num
  · decide
  · decide
  · intro pe hpe
    fin_cases hpe
    · exact prime_2
    · exact prime_3
    · exact prime_5
    · exact prime_20113
  · decide
  · decide

theorem prime_7240687 : Nat.Prime 7240687 := by
  apply lucas_cert 7240687 3 [(2, 1), (3, 1), (1206781, 1)]
  · norm_num
  · decide
  · decide
  · intro pe hpe
    fin_cases hpe
    · exact prime_2
    · exact prime_3
    · exact prime_1206781
  · decide
  · decide

theorem prime_13331831 : Nat.Prime 13331831 := by
  apply lucas_cert 13331831 13 [(2, 1), (5, 1), (971, 1), (1373, 1)]
  · norm_num
  · decide
  · decide
  · intro pe hpe
    fin_cases hpe
    · exact prime_2
    · exact prime_5
    · exact prime_971
    · exact prime_1373
  · decide
  · decide

theorem prime_107590001 : Nat.Prime 107590001 := by
  apply lucas_cert 107590001 3 [(2, 4), (5, 4), (7, 1), (29, 1), (53, 1)]
  · norm_num
  · decide
  · decide
  · intro pe hpe
    fin_cases hpe
    · exact prime_2
    · exact prime_5
    · exact prime_7
    · exact prime_29
    · exact prime_53
  · decide
  · decide

theorem prime_173378833005251801 : Nat.Prime 173378833005251801 := by
  apply lucas_cert 173378833005251801 6
    [(2, 3), (5, 2), (2621, 1), (24809, 1), (13331831, 1)]
  · norm_num
  · decide
  · decide
  · intro pe hpe
    fin_cases hpe
    · exact prime_2
    · exact prime_5
    · exact prime_2621
    · exact prime_24809
    · exact prime_13331831
  · decide
  · decide

theorem prime_22149492674086928081353 : Nat.Prime 22149492674086928081353 := by
  apply lucas_cert 22149492674086928081353 5
    [(2, 3), (3, 1), (5323, 1), (173378833005251801, 1)]
  · norm_num
  · decide
  · decide
  · intro pe hpe
    fin_cases hpe
    · exact prime_2
    · exact prime_3
    · exact prime_5323
    · exact prime_173378833005251801
  · decide
  · decide

theorem prime_132896956044521568488119 : Nat.Prime 132896956044521568488119 := by
  apply lucas_cert 132896956044521568488119 6
    [(2, 1), (3, 1), (22149492674086928081353, 1)]
  · norm_num
  · decide
  · decide
  · intro pe hpe
    fin_cases hpe
    · exact prime_2
    · exact prime_3
    · exact prime_22149492674086928081353
  · decide
  · decide

theorem prime_255515944373312847190720520512484175977 : Nat.Prime 255515944373312847190720520512484175977 := by
  apply lucas_cert 255515944373312847190720520512484175977 3
    [(2, 3), (7, 2), (11, 1), (1627, 1), (2657, 1), (4423, 1), (41201, 1), (96557, 1), (7240687, 1), (107590001, 1)]
  · norm_num
  · decide
  · decide
  · intro pe hpe
    fin_cases hpe
    · exact prime_2
    · exact prime_7
    · exact prime_11
    · exact prime_1627
    · exact prime_2657
    · exact prime_4423
    · exact prime_41201
    · exact prime_96557
    · exact prime_7240687
    · exact prime_107590001
  · decide
  · decide

theorem prime_205115282021455665897114700593932402728804164701536103180137503955397371 : Nat.Prime 205115282021455665897114700593932402728804164701536103180137503955397371 := by
  apply lucas_cert 205115282021455665897114700593932402728804164701536103180137503955397371 10
    [(2, 1), (3, 1), (5, 1), (29, 2), (31, 1), (7723, 1), (132896956044521568488119, 1), (255515944373312847190720520512484175977, 1)]
  · norm_num
  · decide
  · decide
  · intro pe hpe
    fin_cases hpe
    · exact prime_2
    · exact prime_3
    · exact prime_5
    · exact prime_29
    · exact prime_31
    · exact prime_7723
    · exact prime_132896956044521568488119
    · exact prime_255515944373312847190720520512484175977
  · decide
  · decide

/-- The secp256k1 field characteristic is prime. -/
theorem prime_secp256k1_p : Nat.Prime SECP256K1_P := by
  have hP : SECP256K1_P = 115792089237316195423570985008687907853269984665640564039457584007908834671663 := by norm_num [SECP256K1_P]
  rw [hP]
  apply lucas_cert 115792089237316195423570985008687907853269984665640564039457584007908834671663 3
    [(2, 1), (3, 1), (7, 1), (13441, 1), (205115282021455665897114700593932402728804164701536103180137503955397371, 1)]
  · norm_num
  · decide
  · decide
  · intro pe hpe
    fin_cases hpe
    · exact prime_2
    · exact prime_3
    · exact prime_7
    · exact prime_13441
    · exact prime_205115282021455665897114700593932402728804164701536103180137503955397371
  · decide
  · decide

instance fact_prime_secp256k1_p : Fact (Nat.Prime SECP256K1_P) :=
  ⟨prime_secp256k1_p⟩

end SimpleBTC

namespace SimpleBTC

set_option maxRecDepth 1000000

/- ------------------------------------------------------------------
Curve membership is preserved by the group operations (C9): the results
assembled coordinate-wise by `add` / `double` are shown to satisfy the
curve equation by transporting the computation into the field
`ZMod SECP256K1_P` and reusing Mathlib's Weierstrass-curve lemmas.
------------------------------------------------------------------ -/

/-- The secp256k1 short Weierstrass curve over its prime field. -/
def W256 : WeierstrassCurve.Affine (ZMod SECP256K1_P) :=
  ⟨0, 0, 0, 0, 7⟩

theorem secp_p_pos : 0 < SECP256K1_P := by
  norm_num [SECP256K1_P]

theorem natMod_cast (z : Int) :
    ((natMod z SECP256K1_P : Nat) : ZMod SECP256K1_P) =
      (z : ZMod SECP256K1_P) := by
  unfold natMod
  have h0 : (0 : Int) ≤ z % (SECP256K1_P : Int) :=
    Int.emod_nonneg _ (by exact_mod_cast secp_p_pos.ne')
  have h1 : (((z % (SECP256K1_P : Int)).toNat : Nat) : Int)
      = z % (SECP256K1_P : Int) := Int.toNat_of_nonneg h0
  calc (((z % (SECP256K1_P : Int)).toNat : Nat) : ZMod SECP256K1_P)
      = ((((z % (SECP256K1_P : Int)).toNat : Nat) : Int) : ZMod SECP256K1_P) := by
        rw [Int.cast_natCast]
    _ = ((z % (SECP256K1_P : Int) : Int) : ZMod SECP256K1_P) := by rw [h1]
    _ = (z : ZMod SECP256K1_P) := ZMod.intCast_mod z SECP256K1_P

theorem natCast_modP (a : Nat) :
    ((a % SECP256K1_P : Nat) : ZMod SECP256K1_P) = (a : ZMod SECP256K1_P) :=
  ZMod.natCast_mod a SECP256K1_P

theorem is_contained_iff_equation (x y : Nat) :
    is_contained x y SECP256K1_A SECP256K1_B SECP256K1_P = true ↔
      W256.Equation (x : ZMod SECP256K1_P) (y : ZMod SECP256K1_P) := by
  unfold is_contained
  rw [beq_iff_eq, WeierstrassCurve.Affine.equation_iff]
  unfold W256
  simp only [SECP256K1_A, SECP256K1_B]
  rw [← Int.dvd_iff_emod_eq_zero]
  rw [show ((SECP256K1_P : Nat) : Int) ∣
        ((y : Int) ^ 2 - ((x : Int) ^ 3 + ((0 : Nat) : Int) * (x : Int) + ((7 : Nat) : Int))) ↔
      ((((y : Int) ^ 2 - ((x : Int) ^ 3 + ((0 : Nat) : Int) * (x : Int) + ((7 : Nat) : Int))) : Int)
        : ZMod SECP256K1_P) = 0 from
    (ZMod.intCast_zmod_eq_zero_iff_dvd _ _).symm]
  push_cast
  constructor
  · intro h
    have := sub_eq_zero.mp h
    linear_combination this
  · intro h
    rw [sub_eq_zero]
    linear_combination h

theorem mod_inverse_unit {a v : Nat}
    (h : mod_inverse a SECP256K1_P = .ok v) :
    (a : ZMod SECP256K1_P) * (v : ZMod SECP256K1_P) = 1 := by
  have h1 := mod_inverse_ok secp_p_pos h
  have h2 : ((a * v % SECP256K1_P : Nat) : ZMod SECP256K1_P)
      = ((1 % SECP256K1_P : Nat) : ZMod SECP256K1_P) := by rw [h1]
  rw [natCast_modP, natCast_modP] at h2
  push_cast at h2
  exact h2

end SimpleBTC

namespace SimpleBTC

set_option maxRecDepth 1000000

theorem equation_of_valid {p : ECPoint} (hp : p.valid)
    (hne : p ≠ ECPoint.infinity) :
    W256.Equation (p.x : ZMod SECP256K1_P) (p.y : ZMod SECP256K1_P) := by
  rcases hp with h | h
  · exact absurd h hne
  · exact (is_contained_iff_equation p.x p.y).mp h

/-- Membership of the chord-tangent result, stated on the raw slope
formulas used by the embedded code. -/
theorem equation_chord (X1 Y1 X2 Y2 S : ZMod SECP256K1_P)
    (e1 : W256.Equation X1 Y1) (e2 : W256.Equation X2 Y2)
    (hxy : X1 = X2 → Y1 ≠ -Y2)
    (hS : S = W256.slope X1 X2 Y1 Y2) :
    W256.Equation (S ^ 2 - X1 - X2) (S * (X1 - (S ^ 2 - X1 - X2)) - Y1) := by
  have hxy2 : X1 = X2 → Y1 ≠ W256.negY X2 Y2 := by
    intro hx
    simpa [WeierstrassCurve.Affine.negY, W256] using hxy hx
  have h := WeierstrassCurve.Affine.equation_add e1 e2 hxy2
  have haddX : W256.addX X1 X2 (W256.slope X1 X2 Y1 Y2) = S ^ 2 - X1 - X2 := by
    simp [WeierstrassCurve.Affine.addX, W256, hS]
  have haddY : W256.addY X1 X2 Y1 (W256.slope X1 X2 Y1 Y2)
      = S * (X1 - (S ^ 2 - X1 - X2)) - Y1 := by
    simp [WeierstrassCurve.Affine.addY, WeierstrassCurve.Affine.negAddY,
      WeierstrassCurve.Affine.negY, W256, hS, haddX]
    ring
  rw [haddX, haddY] at h
  exact h

theorem double_valid {p q : ECPoint} (hp : p.valid)
    (h : ECPoint.double p = .ok q) : q.valid := by
  by_cases hinf : p = ECPoint.infinity
  · simp only [ECPoint.double, if_pos hinf, Res.ok.injEq] at h
    subst h
    exact Or.inl rfl
  · cases hmv : mod_inverse (2 * p.y % SECP256K1_P) SECP256K1_P with
    | verr m => simp [ECPoint.double, if_neg hinf, hmv] at h
    | exc => simp [ECPoint.double, if_neg hinf, hmv] at h
    | ok v =>
      simp only [ECPoint.double, if_neg hinf, hmv, Res.ok.injEq] at h
      subst h
      right
      rw [is_contained_iff_equation]
      have hE := equation_of_valid hp hinf
      have hu : ((2 * p.y % SECP256K1_P : Nat) : ZMod SECP256K1_P)
          * (v : ZMod SECP256K1_P) = 1 := mod_inverse_unit hmv
      rw [natCast_modP] at hu
      push_cast at hu
      push_cast [natMod_cast, natCast_modP, SECP256K1_A]
      set X := (p.x : ZMod SECP256K1_P)
      set Y := (p.y : ZMod SECP256K1_P)
      set V := (v : ZMod SECP256K1_P)
      set S := 3 * X * X * V with hSdef
      have h2Y : (2 : ZMod SECP256K1_P) * Y ≠ 0 := by
        intro h0
        rw [h0, zero_mul] at hu
        exact one_ne_zero hu.symm
      have hYne : Y ≠ -Y := by
        intro h0
        apply h2Y
        linear_combination h0
      have hS : S = W256.slope X X Y Y := by
        rw [WeierstrassCurve.Affine.slope_of_Y_ne rfl
          (by simpa [WeierstrassCurve.Affine.negY, W256] using hYne)]
        have hV : V = ((2 : ZMod SECP256K1_P) * Y)⁻¹ := by
          field_simp [h2Y]
          linear_combination hu
        rw [hSdef, hV]
        simp [WeierstrassCurve.Affine.negY, W256]
        field_simp
        ring
      have hres := equation_chord X Y X Y S hE hE (fun _ => hYne) hS
      convert hres using 2 <;> rw [hSdef] <;> ring
  
end SimpleBTC

namespace SimpleBTC

set_option maxRecDepth 1000000

theorem add_valid {p1 p2 q : ECPoint} (h1 : p1.valid) (h2 : p2.valid)
    (h : ECPoint.add p1 p2 = .ok q) : q.valid := by
  by_cases hi1 : p1 = ECPoint.infinity
  · simp only [ECPoint.add, if_pos hi1, Res.ok.injEq] at h
    subst h
    exact h2
  · by_cases hi2 : p2 = ECPoint.infinity
    · simp only [ECPoint.add, if_neg hi1, if_pos hi2, Res.ok.injEq] at h
      subst h
      exact h1
    · by_cases hx : p1.x = p2.x
      · by_cases hy : p1.y = p2.y
        · simp only [ECPoint.add, if_neg hi1, if_neg hi2, if_pos hx,
            if_pos hy] at h
          exact double_valid h1 h
        · simp only [ECPoint.add, if_neg hi1, if_neg hi2, if_pos hx,
            if_neg hy, Res.ok.injEq] at h
          subst h
          exact Or.inl rfl
      · cases hmv : mod_inverse (natMod ((p2.x : Int) - p1.x) SECP256K1_P)
            SECP256K1_P with
        | verr m =>
          simp [ECPoint.add, if_neg hi1, if_neg hi2, if_neg hx, hmv] at h
        | exc =>
          simp [ECPoint.add, if_neg hi1, if_neg hi2, if_neg hx, hmv] at h
        | ok v =>
          simp only [ECPoint.add, if_neg hi1, if_neg hi2, if_neg hx, hmv,
            Res.ok.injEq] at h
          subst h
          right
          rw [is_contained_iff_equation]
          have hE1 := equation_of_valid h1 hi1
          have hE2 := equation_of_valid h2 hi2
          have hu : ((natMod ((p2.x : Int) - p1.x) SECP256K1_P : Nat) :
              ZMod SECP256K1_P) * (v : ZMod SECP256K1_P) = 1 :=
            mod_inverse_unit hmv
          rw [natMod_cast] at hu
          push_cast at hu
          push_cast [natMod_cast, natCast_modP]
          set X1 := (p1.x : ZMod SECP256K1_P)
          set Y1 := (p1.y : ZMod SECP256K1_P)
          set X2 := (p2.x : ZMod SECP256K1_P)
          set Y2 := (p2.y : ZMod SECP256K1_P)
          set V := (v : ZMod SECP256K1_P)
          set S := (Y2 - Y1) * V with hSdef
          have hD : X2 - X1 ≠ 0 := by
            intro h0
            rw [h0, zero_mul] at hu
            exact one_ne_zero hu.symm
          have hXne : X1 ≠ X2 := by
            intro h0
            apply hD
            rw [h0]
            ring
          have hDs : X1 - X2 ≠ 0 := sub_ne_zero.mpr hXne
          have hS : S = W256.slope X1 X2 Y1 Y2 := by
            rw [WeierstrassCurve.Affine.slope_of_X_ne hXne]
            have hV : V = (X2 - X1)⁻¹ := by
              field_simp
              linear_combination hu
            rw [hSdef, hV]
            field_simp
            ring
          have hres := equation_chord X1 Y1 X2 Y2 S hE1 hE2
            (fun h0 => absurd h0 hXne) hS
          convert hres using 2 <;> rw [hSdef] <;> ring

end SimpleBTC

namespace SimpleBTC

set_option maxRecDepth 1000000

theorem mkECPoint_valid {x y : Nat} {q : ECPoint}
    (h : mkECPoint x y = .ok q) : q.valid := by
  unfold mkECPoint at h
  by_cases h0 : x ≠ 0 ∨ y ≠ 0
  · rw [if_pos h0] at h
    by_cases hc : is_contained x y SECP256K1_A SECP256K1_B SECP256K1_P = true
    · rw [if_pos hc] at h
      cases h
      exact Or.inr hc
    · rw [if_neg hc] at h
      cases h
  · rw [if_neg h0] at h
    push_neg at h0
    obtain ⟨hx0, hy0⟩ := h0
    cases h
    subst hx0
    subst hy0
    exact Or.inl rfl

theorem mulLoop_valid : ∀ (f : Nat) (temp p : ECPoint) (x : Int) {q : ECPoint},
    temp.valid → p.valid → mulLoop f temp p x = .ok q → q.valid := by
  intro f
  induction f with
  | zero =>
    intro temp p x q _ _ h
    simp [mulLoop] at h
  | succ f ih =>
    intro temp p x q htemp hp h
    by_cases hx : 0 < x
    · by_cases hodd : x % 2 ≠ 0
      · cases htp : (if temp = p then ECPoint.double temp
            else ECPoint.add temp p) with
        | verr m =>
          simp only [mulLoop, if_pos hx, if_pos hodd, htp] at h
          cases h
        | exc =>
          simp only [mulLoop, if_pos hx, if_pos hodd, htp] at h
          cases h
        | ok temp2 =>
          have htemp2 : temp2.valid := by
            by_cases he : temp = p
            · rw [if_pos he] at htp
              exact double_valid htemp htp
            · rw [if_neg he] at htp
              exact add_valid htemp hp htp
          cases hdp : ECPoint.double p with
          | verr m =>
            simp only [mulLoop, if_pos hx, if_pos hodd, htp, hdp] at h
            cases h
          | exc =>
            simp only [mulLoop, if_pos hx, if_pos hodd, htp, hdp] at h
            cases h
          | ok p2 =>
            simp only [mulLoop, if_pos hx, if_pos hodd, htp, hdp] at h
            exact ih temp2 p2 ((x - 1) / 2) htemp2 (double_valid hp hdp) h
      · cases hdp : ECPoint.double p with
        | verr m =>
          simp only [mulLoop, if_pos hx, if_neg hodd, hdp] at h
          cases h
        | exc =>
          simp only [mulLoop, if_pos hx, if_neg hodd, hdp] at h
          cases h
        | ok p2 =>
          simp only [mulLoop, if_pos hx, if_neg hodd, hdp] at h
          exact ih temp p2 (x / 2) htemp (double_valid hp hdp) h
    · simp only [mulLoop, if_neg hx, Res.ok.injEq] at h
      subst h
      exact htemp

theorem multiply_valid {p q : ECPoint} (k : Int) (hp : p.valid)
    (h : ECPoint.multiply p k = .ok q) : q.valid := by
  unfold ECPoint.multiply at h
  cases hmk : mkECPoint p.x p.y with
  | verr m => rw [hmk] at h; cases h
  | exc => rw [hmk] at h; cases h
  | ok temp =>
    rw [hmk] at h
    exact mulLoop_valid (k.toNat + 1) temp p (k - 1) (mkECPoint_valid hmk) hp h

/-- C9: every point produced by `add`, `double`, or `multiply` (with
`k ≥ 1`) from valid inputs — points on the secp256k1 curve or the
`(0,0)` infinity sentinel — is again the infinity sentinel or a point
on the curve, even though `add` and `double` assemble their results by
direct coordinate assignment on an `ECPoint(0,0)` placeholder,
bypassing the constructor's membership assertion. -/
theorem claim_C9_closure :
    (∀ p1 p2 q : ECPoint, p1.valid → p2.valid →
      ECPoint.add p1 p2 = .ok q → q.valid) ∧
    (∀ p q : ECPoint, p.valid → ECPoint.double p = .ok q → q.valid) ∧
    (∀ (p : ECPoint) (k : Int) (q : ECPoint), p.valid → 1 ≤ k →
      ECPoint.multiply p k = .ok q → q.valid) :=
  ⟨fun _ _ _ h1 h2 h => add_valid h1 h2 h,
   fun _ _ hp h => double_valid hp h,
   fun _ k _ hp _ h => multiply_valid k hp h⟩

theorem claim_C9_closure_witness :
    ECPoint.valid
      ⟨112711660439710606056748659173929673102114977341539408544630613555209775888121,
       25583027980570883691656905877401976406448868254816295069919888960541586679410⟩ ∧
    ECPoint.valid
      ⟨89565891926547004231252920425935692360644145829622209833684329913297188986597,
       12158399299693830322967808612713398636155367887041628176798871954788371653930⟩ ∧
    ECPoint.valid
      ⟨89565891926547004231252920425935692360644145829622209833684329913297188986597,
       12158399299693830322967808612713398636155367887041628176798871954788371653930⟩ :=
  ⟨claim_C9_closure.1 get_generator_point
      ⟨89565891926547004231252920425935692360644145829622209833684329913297188986597,
       12158399299693830322967808612713398636155367887041628176798871954788371653930⟩
      ⟨112711660439710606056748659173929673102114977341539408544630613555209775888121,
       25583027980570883691656905877401976406448868254816295069919888960541586679410⟩
      (Or.inr (by decide)) (Or.inr (by decide)) (by decide),
   claim_C9_closure.2.1 get_generator_point
      ⟨89565891926547004231252920425935692360644145829622209833684329913297188986597,
       12158399299693830322967808612713398636155367887041628176798871954788371653930⟩
      (Or.inr (by decide)) (by decide),
   claim_C9_closure.2.2 get_generator_point 2
      ⟨89565891926547004231252920425935692360644145829622209833684329913297188986597,
       12158399299693830322967808612713398636155367887041628176798871954788371653930⟩
      (Or.inr (by decide)) (by decide) (by decide)⟩

end SimpleBTC

namespace SimpleBTC

set_option maxRecDepth 1000000

theorem int2bytesF_length : ∀ (l i : Nat), (int2bytesF l i).length = l := by
  intro l
  induction l with
  | zero => intro i; rfl
  | succ l ih => intro i; simp [int2bytesF, ih]

theorem int2bytesF_lt : ∀ (l i : Nat), ∀ b ∈ int2bytesF l i, b < 256 := by
  intro l
  induction l with
  | zero => intro i b hb; simp [int2bytesF] at hb
  | succ l ih =>
    intro i b hb
    simp only [int2bytesF, List.mem_append, List.mem_singleton] at hb
    rcases hb with h | h
    · exact ih _ b h
    · subst h
      exact Nat.mod_lt _ (by norm_num)

theorem bytes2int_int2bytesF : ∀ (l i : Nat), i < 256 ^ l →
    bytes2int (int2bytesF l i) = i := by
  intro l
  induction l with
  | zero =>
    intro i hi
    simp at hi
    simp [int2bytesF, bytes2int, hi]
  | succ l ih =>
    intro i hi
    have hdiv : i / 256 < 256 ^ l := by
      rw [pow_succ] at hi
      omega
    simp only [int2bytesF, bytes2int_append, ih (i / 256) hdiv]
    omega

theorem int2bytesF_one {i : Nat} (h : i < 256) : int2bytesF 1 i = [i] := by
  simp [int2bytesF, Nat.mod_eq_of_lt h]

theorem getD_append_ge (l1 l2 : List Nat) (n d : Nat) (h : l1.length ≤ n) :
    (l1 ++ l2).getD n d = l2.getD (n - l1.length) d := by
  unfold List.getD
  rw [List.get?_eq_getElem?, List.get?_eq_getElem?, List.getElem?_append_right h]

theorem take_pref (l1 l2 : List Nat) (n : Nat) (h : l1.length = n) :
    (l1 ++ l2).take n = l1 := by
  subst h
  exact List.take_left l1 l2

theorem drop_pref (l1 l2 : List Nat) (n : Nat) (h : l1.length = n) :
    (l1 ++ l2).drop n = l2 := by
  subst h
  exact List.drop_left l1 l2

theorem slice_mid (pre mid suf : List Nat) (i j : Nat)
    (hi : pre.length = i) (hj : pre.length + mid.length = j) :
    pyslice (pre ++ mid ++ suf) i j = mid := by
  unfold pyslice
  rw [List.append_assoc pre mid suf, ← List.append_assoc pre mid suf]
  rw [take_pref (pre ++ mid) suf j (by simp [hj])]
  exact drop_pref pre mid i hi


theorem take_append_le (l1 l2 : List Nat) (n : Nat) (h : n ≤ l1.length) :
    (l1 ++ l2).take n = l1.take n :=
  List.take_append_of_le_length h

theorem getD_append_lt (l1 l2 : List Nat) (n d : Nat) (h : n < l1.length) :
    (l1 ++ l2).getD n d = l1.getD n d := by
  unfold List.getD
  rw [List.get?_eq_getElem?, List.get?_eq_getElem?, List.getElem?_append, if_pos h]

theorem pyslice_append_le (l1 l2 : List Nat) (i j : Nat) (h : j ≤ l1.length) :
    pyslice (l1 ++ l2) i j = pyslice l1 i j := by
  unfold pyslice
  rw [take_append_le l1 l2 j h]

/-- Field extraction from a 78-byte extended-key payload. -/
theorem extract78 (V F I C K : List Nat) (lvl : Nat)
    (hV : V.length = 4) (hF : F.length = 4) (hI : I.length = 4)
    (hC : C.length = 32) (hK : K.length = 33) :
    (V ++ [lvl] ++ F ++ I ++ C ++ K).take 4 = V ∧
    (V ++ [lvl] ++ F ++ I ++ C ++ K).getD 4 0 = lvl ∧
    pyslice (V ++ [lvl] ++ F ++ I ++ C ++ K) 5 9 = F ∧
    pyslice (V ++ [lvl] ++ F ++ I ++ C ++ K) 9 13 = I ∧
    pyslice (V ++ [lvl] ++ F ++ I ++ C ++ K) 13 45 = C ∧
    (V ++ [lvl] ++ F ++ I ++ C ++ K).getD 45 0 = K.getD 0 0 ∧
    pyslice (V ++ [lvl] ++ F ++ I ++ C ++ K) 46 78 = K.drop 1 ∧
    (V ++ [lvl] ++ F ++ I ++ C ++ K).length = 78 := by
  have hlen : (V ++ [lvl] ++ F ++ I ++ C ++ K).length = 78 := by
    simp [hV, hF, hI, hC, hK]
  refine ⟨?_, ?_, ?_, ?_, ?_, ?_, ?_, hlen⟩
  · rw [show V ++ [lvl] ++ F ++ I ++ C ++ K
        = V ++ ([lvl] ++ F ++ I ++ C ++ K) by simp]
    exact take_pref V _ 4 hV
  · rw [show V ++ [lvl] ++ F ++ I ++ C ++ K
        = V ++ (lvl :: (F ++ I ++ C ++ K)) by simp]
    rw [getD_append_ge V _ 4 0 (by omega)]
    simp [hV]
  · rw [show V ++ [lvl] ++ F ++ I ++ C ++ K
        = (V ++ [lvl]) ++ F ++ (I ++ C ++ K) by simp]
    exact slice_mid (V ++ [lvl]) F (I ++ C ++ K) 5 9 (by simp [hV])
      (by simp [hV, hF])
  · rw [show V ++ [lvl] ++ F ++ I ++ C ++ K
        = (V ++ [lvl] ++ F) ++ I ++ (C ++ K) by simp]
    exact slice_mid (V ++ [lvl] ++ F) I (C ++ K) 9 13 (by simp [hV, hF])
      (by simp [hV, hF, hI])
  · rw [show V ++ [lvl] ++ F ++ I ++ C ++ K
        = (V ++ [lvl] ++ F ++ I) ++ C ++ K by simp]
    exact slice_mid (V ++ [lvl] ++ F ++ I) C K 13 45
      (by simp [hV, hF, hI]) (by simp [hV, hF, hI, hC])
  · rw [show V ++ [lvl] ++ F ++ I ++ C ++ K
        = (V ++ [lvl] ++ F ++ I ++ C) ++ K by simp]
    rw [getD_append_ge _ K 45 0 (by simp [hV, hF, hI, hC])]
    congr 1
    simp [hV, hF, hI, hC]
  · unfold pyslice
    rw [← hlen, List.take_length]
    rw [show V ++ [lvl] ++ F ++ I ++ C ++ K
        = (V ++ [lvl] ++ F ++ I ++ C) ++ K by simp]
    rw [show (46 : Nat) = (V ++ [lvl] ++ F ++ I ++ C).length + 1 by
      simp [hV, hF, hI, hC]]
    exact List.drop_append 1

end SimpleBTC

namespace SimpleBTC

set_option maxRecDepth 1000000
set_option exponentiation.threshold 1000

theorem equation_simple (X Y : ZMod SECP256K1_P) :
    W256.Equation X Y ↔ Y ^ 2 = X ^ 3 + 7 := by
  rw [WeierstrassCurve.Affine.equation_iff]
  unfold W256
  constructor
  · intro h
    linear_combination h
  · intro h
    linear_combination h

theorem val_eq_of_cast_eq {a b : Nat} (ha : a < SECP256K1_P)
    (hb : b < SECP256K1_P)
    (h : (a : ZMod SECP256K1_P) = (b : ZMod SECP256K1_P)) : a = b := by
  have h1 := congrArg ZMod.val h
  rwa [ZMod.val_cast_of_lt ha, ZMod.val_cast_of_lt hb] at h1

/-- Correctness of the compressed-point `y` recovery: for an on-curve
point with reduced coordinates, `get_secp256k1_y` succeeds and its
root, adjusted by the parity rule of `deserialize`, gives back the
original `y`. -/
theorem y_recover {x y : Nat} (hx : x < SECP256K1_P) (hy : y < SECP256K1_P)
    (hc : is_contained x y SECP256K1_A SECP256K1_B SECP256K1_P = true) :
    ∃ y0, get_secp256k1_y x = .ok y0 ∧
      (y % 2 = 0 → (if y0 % 2 ≠ 0 then SECP256K1_P - y0 else y0) = y) ∧
      (y % 2 ≠ 0 → (if y0 % 2 = 0 then SECP256K1_P - y0 else y0) = y) := by
  have hPodd : SECP256K1_P % 2 = 1 := by norm_num [SECP256K1_P]
  have hfuel : (SECP256K1_P + 1) / 4 < 2 ^ 256 := by norm_num [SECP256K1_P]
  set z := x ^ 3 + x * SECP256K1_A + SECP256K1_B with hzdef
  set y0 := powModF 256 z ((SECP256K1_P + 1) / 4) SECP256K1_P with hy0def
  have hy0eq : y0 = z ^ ((SECP256K1_P + 1) / 4) % SECP256K1_P :=
    powModF_eq 256 z _ SECP256K1_P secp_p_pos hfuel
  have hy0lt : y0 < SECP256K1_P := by
    rw [hy0eq]
    exact Nat.mod_lt _ secp_p_pos
  have hE := (is_contained_iff_equation x y).mp hc
  rw [equation_simple] at hE
  have hzc : ((z : Nat) : ZMod SECP256K1_P)
      = ((y : ZMod SECP256K1_P)) ^ 2 := by
    rw [hzdef]
    push_cast [SECP256K1_A, SECP256K1_B]
    linear_combination -hE
  have hY0c : ((y0 : Nat) : ZMod SECP256K1_P)
      = ((y : ZMod SECP256K1_P)) ^ (2 * ((SECP256K1_P + 1) / 4)) := by
    rw [hy0eq, natCast_modP]
    push_cast
    rw [hzc, ← pow_mul]
  have hexp : 2 * ((SECP256K1_P + 1) / 4) = (SECP256K1_P - 1) / 2 + 1 := by
    norm_num [SECP256K1_P]
  have hpm : ((y0 : Nat) : ZMod SECP256K1_P) = (y : ZMod SECP256K1_P) ∨
      ((y0 : Nat) : ZMod SECP256K1_P) = -(y : ZMod SECP256K1_P) := by
    by_cases hY : (y : ZMod SECP256K1_P) = 0
    · left
      rw [hY0c, hexp, hY]
      rw [zero_pow (by omega : (SECP256K1_P - 1) / 2 + 1 ≠ 0)]
    · have hfermat : (y : ZMod SECP256K1_P) ^ (SECP256K1_P - 1) = 1 :=
        ZMod.pow_card_sub_one_eq_one hY
      have hhalf : ((y : ZMod SECP256K1_P) ^ ((SECP256K1_P - 1) / 2)) *
          ((y : ZMod SECP256K1_P) ^ ((SECP256K1_P - 1) / 2)) = 1 := by
        rw [← pow_add]
        rw [show (SECP256K1_P - 1) / 2 + (SECP256K1_P - 1) / 2
            = SECP256K1_P - 1 by norm_num [SECP256K1_P]]
        exact hfermat
      rcases mul_self_eq_one_iff.mp hhalf with h1 | h1
      · left
        rw [hY0c, hexp, pow_succ, h1, one_mul]
      · right
        rw [hY0c, hexp, pow_succ, h1]
        ring
  have hcy0 : is_contained x y0 SECP256K1_A SECP256K1_B SECP256K1_P = true := by
    rw [is_contained_iff_equation, equation_simple]
    have hsq : ((y0 : Nat) : ZMod SECP256K1_P) ^ 2
        = ((y : ZMod SECP256K1_P)) ^ 2 := by
      rcases hpm with h | h <;> rw [h] <;> ring
    rw [hsq, hE]
  have hPsub : ∀ w : Nat, w ≤ SECP256K1_P →
      ((SECP256K1_P - w : Nat) : ZMod SECP256K1_P)
        = -(w : ZMod SECP256K1_P) := by
    intro w hw
    rw [Nat.cast_sub hw, ZMod.natCast_self]
    ring
  refine ⟨y0, ?_, ?_, ?_⟩
  · unfold get_secp256k1_y
    rw [← hzdef, ← hy0def, if_pos hcy0]
  · intro hyeven
    rcases hpm with h | h
    · have hval : y0 = y := val_eq_of_cast_eq hy0lt hy h
      rw [if_neg (by omega)]
      exact hval
    · by_cases hyz : y = 0
      · have hval : y0 = 0 := by
          apply val_eq_of_cast_eq hy0lt secp_p_pos
          rw [h, hyz]
          simp
        rw [if_neg (by omega)]
        omega
      · have hval : y0 = SECP256K1_P - y := by
          apply val_eq_of_cast_eq hy0lt (by omega)
          rw [h, hPsub y (le_of_lt hy)]
        rw [if_pos (by omega)]
        omega
  · intro hyodd
    rcases hpm with h | h
    · have hval : y0 = y := val_eq_of_cast_eq hy0lt hy h
      rw [if_neg (by omega)]
      exact hval
    · have hval : y0 = SECP256K1_P - y := by
        apply val_eq_of_cast_eq hy0lt (by omega)
        rw [h, hPsub y (le_of_lt hy)]
      rw [if_pos (by omega)]
      omega

end SimpleBTC

namespace SimpleBTC

set_option maxRecDepth 1000000

theorem sha256Round_length (st : List Nat) (kw : Nat) :
    (sha256Round st kw).length = st.length := by
  unfold sha256Round
  split
  · simp
  · rfl

theorem foldl_round_length (kws : List Nat) :
    ∀ st : List Nat, (kws.foldl sha256Round st).length = st.length := by
  induction kws with
  | nil => intro st; rfl
  | cons kw rest ih =>
    intro st
    rw [List.foldl_cons, ih (sha256Round st kw), sha256Round_length]

theorem sha256Block_length (H : List Nat) (b : List Nat) (h : H.length = 8) :
    (sha256Block H b).length = 8 := by
  unfold sha256Block
  rw [List.length_zipWith, foldl_round_length, h]
  simp

theorem foldl_block_length (blocks : List (List Nat)) :
    ∀ H : List Nat, H.length = 8 → (blocks.foldl sha256Block H).length = 8 := by
  induction blocks with
  | nil => intro H h; exact h
  | cons b rest ih =>
    intro H h
    rw [List.foldl_cons]
    exact ih _ (sha256Block_length H b h)

theorem flatten_words_length (H : List Nat) :
    ((H.map (int2bytesF 4)).flatten).length = 4 * H.length := by
  induction H with
  | nil => rfl
  | cons w rest ih =>
    simp only [List.map_cons, List.flatten_cons, List.length_append, ih,
      int2bytesF_length, List.length_cons]
    ring

theorem sha256_length (msg : List Nat) : (sha256 msg).length = 32 := by
  unfold sha256
  rw [flatten_words_length, foldl_block_length _ sha256H0 (by rfl)]

theorem sha256_lt (msg : List Nat) : ∀ b ∈ sha256 msg, b < 256 := by
  unfold sha256
  intro b hb
  rw [List.mem_flatten] at hb
  obtain ⟨l, hl, hbl⟩ := hb
  rw [List.mem_map] at hl
  obtain ⟨w, _, rfl⟩ := hl
  exact int2bytesF_lt 4 w b hbl

theorem pyslice_checksum_length (msg : List Nat) :
    (pyslice (sha256 msg) 0 4).length = 4 := by
  unfold pyslice
  rw [List.drop_zero, List.length_take, sha256_length]
  rfl

theorem pyslice_checksum_lt (msg : List Nat) :
    ∀ b ∈ pyslice (sha256 msg) 0 4, b < 256 := by
  intro b hb
  unfold pyslice at hb
  rw [List.drop_zero] at hb
  exact sha256_lt msg b (List.mem_of_mem_take hb)

end SimpleBTC

namespace SimpleBTC

set_option maxRecDepth 1000000


theorem mkECPoint_ok_of_contained {x y : Nat}
    (h : is_contained x y SECP256K1_A SECP256K1_B SECP256K1_P = true) :
    mkECPoint x y = .ok ⟨x, y⟩ := by
  unfold mkECPoint
  by_cases h0 : x ≠ 0 ∨ y ≠ 0
  · rw [if_pos h0, if_pos h]
  · rw [if_neg h0]

theorem res_bind_eq {α β : Type} :
    (Bind.bind : Res α → (α → Res β) → Res β) = Res.bind := rfl

theorem res_ok_bind {α β : Type} (a : α) (f : α → Res β) :
    Res.bind (.ok a) f = f a := rfl

/-- C5: serialization followed by deserialization reconstructs every
well-formed extended key field by field — private (32-byte scalar) and
public (on-curve point with reduced coordinates) nodes, any depth below
256 and any uint32 child index; for public nodes the `y` coordinate is
recovered from `x` and the 0x02/0x03 parity prefix. -/
theorem claim_C5_roundtrip (ek : ExtendedKey)
    (hcc_len : ek.chain_code.length = 32) (hcc : ∀ b ∈ ek.chain_code, b < 256)
    (hlvl : ek.level < 256) (hidx : ek.index < 2 ^ 32)
    (hfp_len : ek.fingerprint.length = 4) (hfp : ∀ b ∈ ek.fingerprint, b < 256)
    (hkey : match ek.key with
      | .priv k => k.length = 32 ∧ ∀ b ∈ k, b < 256
      | .pub P => P.x < SECP256K1_P ∧ P.y < SECP256K1_P ∧
          is_contained P.x P.y SECP256K1_A SECP256K1_B SECP256K1_P = true) :
    Res.bind (ExtendedKey.serialize ek) ExtendedKey.deserialize = .ok ek := by
  obtain ⟨key, cc, lvl, idx, fp⟩ := ek
  simp only at hcc_len hcc hlvl hidx hfp_len hfp hkey
  have hlvlb : int2bytes lvl 1 = .ok [lvl] := by
    unfold int2bytes
    rw [if_pos (by simpa using hlvl), int2bytesF_one hlvl]
  have hidxb : int2bytes idx 4 = .ok (int2bytesF 4 idx) := by
    unfold int2bytes
    rw [if_pos (by norm_num at hidx ⊢; omega)]
  have hidx4 : idx < 256 ^ 4 := by norm_num at hidx ⊢; omega
  cases key with
  | priv k =>
    obtain ⟨hk_len, hk⟩ := hkey
    have hK_len : ([0] ++ k).length = 33 := by simp [hk_len]
    obtain ⟨e1, e2, e3, e4, e5, e6, e7, e8⟩ :=
      extract78 MAINNET_PRIVATE fp (int2bytesF 4 idx) cc ([0] ++ k) lvl
        (by rfl) hfp_len (int2bytesF_length 4 idx) hcc_len hK_len
    have hshape : MAINNET_PRIVATE ++ [lvl] ++ fp ++ int2bytesF 4 idx ++ cc
        ++ [0] ++ k
        = MAINNET_PRIVATE ++ [lvl] ++ fp ++ int2bytesF 4 idx ++ cc
          ++ ([0] ++ k) := by
      simp
    have hserialize : ExtendedKey.serialize ⟨.priv k, cc, lvl, idx, fp⟩
        = .ok (base58_encode
          ((MAINNET_PRIVATE ++ [lvl] ++ fp ++ int2bytesF 4 idx ++ cc
              ++ ([0] ++ k)) ++
            pyslice (sha256 (sha256 (MAINNET_PRIVATE ++ [lvl] ++ fp
              ++ int2bytesF 4 idx ++ cc ++ ([0] ++ k)))) 0 4)) := by
      simp only [ExtendedKey.serialize, Bind.bind, Res.bind, hlvlb, hidxb]
      rw [hshape]
      rfl
    have hbytes : ∀ x ∈ (MAINNET_PRIVATE ++ [lvl] ++ fp ++ int2bytesF 4 idx
        ++ cc ++ ([0] ++ k)) ++
          pyslice (sha256 (sha256 (MAINNET_PRIVATE ++ [lvl] ++ fp
            ++ int2bytesF 4 idx ++ cc ++ ([0] ++ k)))) 0 4, x < 256 := by
      rw [List.forall_mem_append]
      refine ⟨?_, pyslice_checksum_lt _⟩
      rw [List.forall_mem_append]
      refine ⟨?_, List.forall_mem_append.mpr ⟨by decide, hk⟩⟩
      rw [List.forall_mem_append]
      refine ⟨?_, hcc⟩
      rw [List.forall_mem_append]
      refine ⟨?_, int2bytesF_lt 4 idx⟩
      rw [List.forall_mem_append]
      refine ⟨?_, hfp⟩
      rw [List.forall_mem_append]
      refine ⟨by decide, ?_⟩
      intro x hx
      simp only [List.mem_singleton] at hx
      omega
    have hlen82 : ((MAINNET_PRIVATE ++ [lvl] ++ fp ++ int2bytesF 4 idx
        ++ cc ++ ([0] ++ k)) ++
          pyslice (sha256 (sha256 (MAINNET_PRIVATE ++ [lvl] ++ fp
            ++ int2bytesF 4 idx ++ cc ++ ([0] ++ k)))) 0 4).length = 82 := by
      rw [List.length_append, e8, pyslice_checksum_length]
    have hdec := base58_enc_dec _ hbytes
    rw [hlen82] at hdec
    rw [hserialize]
    show Res.bind _ ExtendedKey.deserialize = _
    simp only [Res.bind]
    unfold ExtendedKey.deserialize
    rw [show (Bind.bind : Res (List Nat) → (List Nat → Res ExtendedKey)
      → Res ExtendedKey) = Res.bind from rfl]
    rw [hdec]
    rw [show ∀ (x : List Nat) (f : List Nat → Res ExtendedKey),
      Res.bind (.ok x) f = f x from fun _ _ => rfl]
    rw [take_pref _ _ 78 e8, drop_pref _ _ 78 e8]
    rw [if_neg (not_not.mpr rfl)]
    rw [take_append_le _ _ 4 (by omega), e1]
    rw [if_pos rfl]
    rw [getD_append_lt _ _ 4 0 (by omega), e2]
    rw [pyslice_append_le _ _ 5 9 (by omega), e3]
    rw [pyslice_append_le _ _ 9 13 (by omega), e4]
    rw [pyslice_append_le _ _ 13 45 (by omega), e5]
    rw [pyslice_append_le _ _ 46 78 (by omega), e7]
    rw [bytes2int_int2bytesF 4 idx hidx4]
    rfl
  | pub P =>
    obtain ⟨hxP, hyP, hcont⟩ := hkey
    have hx256 : P.x < 256 ^ 32 := lt_trans hxP (by norm_num [SECP256K1_P])
    have hpk : point_to_publickey P true
        = .ok ((if P.y % 2 = 0 then [2] else [3]) ++ int2bytesF 32 P.x) := by
      unfold point_to_publickey int2bytes
      rw [if_pos rfl, if_pos hx256]
      rfl
    have hK_len : ((if P.y % 2 = 0 then [2] else [3])
        ++ int2bytesF 32 P.x).length = 33 := by
      by_cases h : P.y % 2 = 0 <;> simp [h, int2bytesF_length]
    have hK_lt : ∀ b ∈ (if P.y % 2 = 0 then [2] else [3])
        ++ int2bytesF 32 P.x, b < 256 := by
      intro b hb
      rw [List.mem_append] at hb
      rcases hb with hb | hb
      · by_cases h : P.y % 2 = 0 <;> simp [h] at hb <;> omega
      · exact int2bytesF_lt 32 P.x b hb
    have hK_drop : ((if P.y % 2 = 0 then [2] else [3])
        ++ int2bytesF 32 P.x).drop 1 = int2bytesF 32 P.x := by
      by_cases h : P.y % 2 = 0 <;> simp [h]
    have hK_getD : ((if P.y % 2 = 0 then [2] else [3])
        ++ int2bytesF 32 P.x).getD 0 0 = (if P.y % 2 = 0 then 2 else 3) := by
      by_cases h : P.y % 2 = 0 <;> simp [h, List.getD]
    obtain ⟨e1, e2, e3, e4, e5, e6, e7, e8⟩ :=
      extract78 MAINNET_PUBLIC fp (int2bytesF 4 idx) cc
        ((if P.y % 2 = 0 then [2] else [3]) ++ int2bytesF 32 P.x) lvl
        (by rfl) hfp_len (int2bytesF_length 4 idx) hcc_len hK_len
    have hserialize : ExtendedKey.serialize ⟨.pub P, cc, lvl, idx, fp⟩
        = .ok (base58_encode
          ((MAINNET_PUBLIC ++ [lvl] ++ fp ++ int2bytesF 4 idx ++ cc
              ++ ((if P.y % 2 = 0 then [2] else [3]) ++ int2bytesF 32 P.x)) ++
            pyslice (sha256 (sha256 (MAINNET_PUBLIC ++ [lvl] ++ fp
              ++ int2bytesF 4 idx ++ cc
              ++ ((if P.y % 2 = 0 then [2] else [3]) ++ int2bytesF 32 P.x)))) 0 4)) := by
      simp only [ExtendedKey.serialize, Bind.bind, Res.bind, hlvlb, hidxb, hpk]
      rfl
    have hbytes : ∀ x ∈ (MAINNET_PUBLIC ++ [lvl] ++ fp ++ int2bytesF 4 idx
        ++ cc ++ ((if P.y % 2 = 0 then [2] else [3]) ++ int2bytesF 32 P.x)) ++
          pyslice (sha256 (sha256 (MAINNET_PUBLIC ++ [lvl] ++ fp
            ++ int2bytesF 4 idx ++ cc
            ++ ((if P.y % 2 = 0 then [2] else [3]) ++ int2bytesF 32 P.x)))) 0 4,
          x < 256 := by
      rw [List.forall_mem_append]
      refine ⟨?_, pyslice_checksum_lt _⟩
      rw [List.forall_mem_append]
      refine ⟨?_, hK_lt⟩
      rw [List.forall_mem_append]
      refine ⟨?_, hcc⟩
      rw [List.forall_mem_append]
      refine ⟨?_, int2bytesF_lt 4 idx⟩
      rw [List.forall_mem_append]
      refine ⟨?_, hfp⟩
      rw [List.forall_mem_append]
      refine ⟨by decide, ?_⟩
      intro x hx
      simp only [List.mem_singleton] at hx
      omega
    have hlen82 : ((MAINNET_PUBLIC ++ [lvl] ++ fp ++ int2bytesF 4 idx
        ++ cc ++ ((if P.y % 2 = 0 then [2] else [3]) ++ int2bytesF 32 P.x)) ++
          pyslice (sha256 (sha256 (MAINNET_PUBLIC ++ [lvl] ++ fp
            ++ int2bytesF 4 idx ++ cc
            ++ ((if P.y % 2 = 0 then [2] else [3]) ++ int2bytesF 32 P.x)))) 0 4).length
        = 82 := by
      rw [List.length_append, e8, pyslice_checksum_length]
    have hdec := base58_enc_dec _ hbytes
    rw [hlen82] at hdec
    obtain ⟨y0, hy0ok, heven, hodd⟩ := y_recover hxP hyP hcont
    rw [hserialize]
    show Res.bind _ ExtendedKey.deserialize = _
    simp only [Res.bind]
    unfold ExtendedKey.deserialize
    rw [show (Bind.bind : Res (List Nat) → (List Nat → Res ExtendedKey)
      → Res ExtendedKey) = Res.bind from rfl]
    rw [hdec]
    rw [show ∀ (x : List Nat) (f : List Nat → Res ExtendedKey),
      Res.bind (.ok x) f = f x from fun _ _ => rfl]
    rw [take_pref _ _ 78 e8, drop_pref _ _ 78 e8]
    rw [if_neg (not_not.mpr rfl)]
    rw [take_append_le _ _ 4 (by omega), e1]
    rw [if_neg (by decide), if_pos rfl]
    rw [getD_append_lt _ _ 4 0 (by omega), e2]
    rw [pyslice_append_le _ _ 5 9 (by omega), e3]
    rw [pyslice_append_le _ _ 9 13 (by omega), e4]
    rw [pyslice_append_le _ _ 13 45 (by omega), e5]
    rw [pyslice_append_le _ _ 46 78 (by omega), e7, hK_drop]
    rw [getD_append_lt _ _ 45 0 (by omega), e6, hK_getD]
    rw [bytes2int_int2bytesF 4 idx hidx4]
    rw [bytes2int_int2bytesF 32 P.x hx256]
    rw [show (Bind.bind : Res Nat → (Nat → Res ExtendedKey)
      → Res ExtendedKey) = Res.bind from rfl]
    dsimp only
    rw [hy0ok]
    rw [show ∀ (x : Nat) (f : Nat → Res ExtendedKey),
      Res.bind (.ok x) f = f x from fun _ _ => rfl]
    by_cases hpar : P.y % 2 = 0
    · rw [if_pos (show (if P.y % 2 = 0 then (2:Nat) else 3) = 2 by
        rw [if_pos hpar])]
      rw [heven hpar]
      rw [mkECPoint_ok_of_contained hcont]
      rw [show (Bind.bind : Res ECPoint → (ECPoint → Res ExtendedKey)
        → Res ExtendedKey) = Res.bind from rfl]
      rw [show ∀ (x : ECPoint) (f : ECPoint → Res ExtendedKey),
        Res.bind (.ok x) f = f x from fun _ _ => rfl]
      rfl
    · rw [if_neg (show ¬ (if P.y % 2 = 0 then (2:Nat) else 3) = 2 by
        rw [if_neg hpar]
        decide)]
      rw [hodd hpar]
      rw [mkECPoint_ok_of_contained hcont]
      rw [show (Bind.bind : Res ECPoint → (ECPoint → Res ExtendedKey)
        → Res ExtendedKey) = Res.bind from rfl]
      rw [show ∀ (x : ECPoint) (f : ECPoint → Res ExtendedKey),
        Res.bind (.ok x) f = f x from fun _ _ => rfl]
      rfl

end SimpleBTC

namespace SimpleBTC

set_option maxRecDepth 1000000

theorem claim_C5_roundtrip_witness :
    Res.bind (ExtendedKey.serialize
        ⟨.priv (List.replicate 32 7), List.replicate 32 1, 3, 2 ^ 31 + 5,
          [1, 2, 3, 4]⟩) ExtendedKey.deserialize
      = .ok ⟨.priv (List.replicate 32 7), List.replicate 32 1, 3, 2 ^ 31 + 5,
          [1, 2, 3, 4]⟩ ∧
    Res.bind (ExtendedKey.serialize
        ⟨.pub get_generator_point, List.replicate 32 2, 255, 0,
          [0, 0, 0, 0]⟩) ExtendedKey.deserialize
      = .ok ⟨.pub get_generator_point, List.replicate 32 2, 255, 0,
          [0, 0, 0, 0]⟩ :=
  ⟨claim_C5_roundtrip _ (by decide) (by decide) (by decide) (by decide)
      (by decide) (by decide) (by decide),
   claim_C5_roundtrip _ (by decide) (by decide) (by decide) (by decide)
      (by decide) (by decide) (by decide)⟩

end SimpleBTC
